import Mathlib

set_option maxRecDepth 100000

/-!
Verification development for the `bloom` streaming line-deduplication tool.

The Rust sources are shallowly embedded below:

* machine integers are `Nat` with explicit `% 2 ^ w` where wrap-around matters;
* fallible operations (Rust panics: `unwrap` on out-of-range bit indices,
  `%` by zero, unknown enum discriminants, short reads) return `Option`;
* the byte content written to / read from container files is a `List Nat`
  (each element a byte value `< 256`);
* the `f64` arithmetic used by `calc_slot_index` in
  `src/bloom/containers/container_memory_xxh.rs` is modelled exactly as
  IEEE-754 binary64 round-to-nearest-even on dyadic rationals (the values
  reached by that code are finite, so this model is exact);
* the two external crates used by the containers (`bloomfilter` and
  `xxhash-rust`) are not part of this repository; their behaviour is
  modelled from the specification (see the doc comments marked
  `Modelled from the spec:`).
-/

namespace Bloom

/-! ## Little-endian / big-endian byte encodings (byteorder crate calls) -/

/-- The 8 little-endian bytes of `n` as written by `write_u64::<LittleEndian>`
(the Rust call receives a `u64`, hence the value is taken mod `2^64`). -/
def le8 (n : Nat) : List Nat :=
  [n % 256, n / 2 ^ 8 % 256, n / 2 ^ 16 % 256, n / 2 ^ 24 % 256,
   n / 2 ^ 32 % 256, n / 2 ^ 40 % 256, n / 2 ^ 48 % 256, n / 2 ^ 56 % 256]

/-- The 4 big-endian bytes of a `u32`, as written by `write_u32::<BigEndian>`. -/
def be4 (n : Nat) : List Nat :=
  [n / 2 ^ 24 % 256, n / 2 ^ 16 % 256, n / 2 ^ 8 % 256, n % 256]

/-- Reads a little-endian `u64` from the head of a byte list
(`read_u64::<LittleEndian>`); fails (I/O error, `unwrap` panic) when fewer
than 8 bytes remain. -/
def readU64LE : List Nat → Option (Nat × List Nat)
  | b0 :: b1 :: b2 :: b3 :: b4 :: b5 :: b6 :: b7 :: rest =>
      some (b0 + b1 * 2 ^ 8 + b2 * 2 ^ 16 + b3 * 2 ^ 24 + b4 * 2 ^ 32
            + b5 * 2 ^ 40 + b6 * 2 ^ 48 + b7 * 2 ^ 56, rest)
  | _ => none

/-- Reads a big-endian `u32` from the head of a byte list. -/
def readU32BE : List Nat → Option (Nat × List Nat)
  | b0 :: b1 :: b2 :: b3 :: rest =>
      some (b0 * 2 ^ 24 + b1 * 2 ^ 16 + b2 * 2 ^ 8 + b3, rest)
  | _ => none

/-! ## Bit vectors (the `bit-vec` crate)

`BitVec` is modelled as a `List Bool`.  `get` out of range returns `none`
(the Rust code calls `.unwrap()` on it, a panic); `set` out of range is a
panic in the crate, hence `none` as well. -/

/-- `BitVec::get`. -/
def bvGet (bits : List Bool) (i : Nat) : Option Bool :=
  bits[i]?

/-- `BitVec::set` (panics when out of range, hence `Option`). -/
def bvSet (bits : List Bool) (i : Nat) (v : Bool) : Option (List Bool) :=
  if i < bits.length then some (bits.set i v) else none

/-- One byte from (up to) 8 bits, most-significant bit first, as in
`BitVec::to_bytes` of the `bit-vec` crate. -/
def bitsByte (bits : List Bool) : Nat :=
  (bits.take 8).foldl (fun acc b => acc * 2 + (if b then 1 else 0)) 0
    * 2 ^ (8 - (bits.take 8).length)

/-- `BitVec::to_bytes`: bits packed 8 per byte, MSB first, last byte
zero-padded. -/
def bitsToBytes : List Bool → List Nat
  | [] => []
  | b0 :: b1 :: b2 :: b3 :: b4 :: b5 :: b6 :: b7 :: rest =>
      bitsByte [b0, b1, b2, b3, b4, b5, b6, b7] :: bitsToBytes rest
  | tail => [bitsByte tail]

/-- `BitVec::from_bytes`: each byte expands to 8 bits, MSB first. -/
def byteToBits (b : Nat) : List Bool :=
  [b / 128 % 2 = 1, b / 64 % 2 = 1, b / 32 % 2 = 1, b / 16 % 2 = 1,
   b / 8 % 2 = 1, b / 4 % 2 = 1, b / 2 % 2 = 1, b % 2 = 1]

/-- `BitVec::from_bytes` over a whole byte list. -/
def bytesToBits (bytes : List Nat) : List Bool :=
  bytes.flatMap byteToBits

/-! ## UTF-8 validation (`String::from_utf8` in `process`) -/

/-- Whether `b` is a UTF-8 continuation byte (`0x80..=0xBF`). -/
def isCont (b : Nat) : Bool :=
  128 ≤ b && b ≤ 191

/-- Standard UTF-8 validation, as performed by Rust's `String::from_utf8`:
rejects overlong encodings, surrogates and code points above `U+10FFFF`. -/
def validUtf8 : List Nat → Bool
  | [] => true
  | b0 :: rest =>
    if b0 < 128 then validUtf8 rest
    else if 194 ≤ b0 && b0 ≤ 223 then
      match rest with
      | b1 :: rest' => isCont b1 && validUtf8 rest'
      | [] => false
    else if b0 = 224 then
      match rest with
      | b1 :: b2 :: rest' => (160 ≤ b1 && b1 ≤ 191) && isCont b2 && validUtf8 rest'
      | _ => false
    else if (225 ≤ b0 && b0 ≤ 236) || b0 = 238 || b0 = 239 then
      match rest with
      | b1 :: b2 :: rest' => isCont b1 && isCont b2 && validUtf8 rest'
      | _ => false
    else if b0 = 237 then
      match rest with
      | b1 :: b2 :: rest' => (128 ≤ b1 && b1 ≤ 159) && isCont b2 && validUtf8 rest'
      | _ => false
    else if b0 = 240 then
      match rest with
      | b1 :: b2 :: b3 :: rest' =>
          (144 ≤ b1 && b1 ≤ 191) && isCont b2 && isCont b3 && validUtf8 rest'
      | _ => false
    else if 241 ≤ b0 && b0 ≤ 243 then
      match rest with
      | b1 :: b2 :: b3 :: rest' => isCont b1 && isCont b2 && isCont b3 && validUtf8 rest'
      | _ => false
    else if b0 = 244 then
      match rest with
      | b1 :: b2 :: b3 :: rest' =>
          (128 ≤ b1 && b1 ≤ 143) && isCont b2 && isCont b3 && validUtf8 rest'
      | _ => false
    else false

/-! ## Exact model of the IEEE-754 binary64 values reached by `remap`

`calc_slot_index` computes
`remap(hash as f64, 0f64, u64::MAX as f64, 0f64, (num_slots - 1) as f64) as u64
 % num_slots`.
All intermediate values are finite (magnitudes at most `2^128`), far from
overflow and underflow, so binary64 arithmetic on them is exactly
"round the exact rational result to 53 significant bits, ties to even".
A float is represented as a dyadic rational `m * 2^e` (`Fp`); each operation
rounds its exact result. -/

/-- A finite binary64 value: `m * 2 ^ e` with `|m| < 2 ^ 53` after rounding. -/
structure Fp where
  m : Int
  e : Int
  deriving DecidableEq, Repr

/-- Base-2 logarithm with explicit fuel (the fuel only has to exceed the
logarithm, so passing `n` itself makes this total and exact). -/
def log2Fuel : Nat → Nat → Nat
  | 0, _ => 0
  | fuel + 1, n => if 2 ≤ n then log2Fuel fuel (n / 2) + 1 else 0

/-- `floor (log2 n)` for `n ≥ 1` (and 0 for `n = 0`). -/
def natLog2 (n : Nat) : Nat := log2Fuel n n

/-- The zero float. -/
def fZero : Fp := ⟨0, 0⟩

/-- Round the positive rational `a / b` (`a, b > 0`) to `prec` significant
bits, round-to-nearest, ties to even: the rounding performed by every
binary64 (`prec = 53`) or binary32 (`prec = 24`) operation on the values
reached by this program. -/
def roundPosRat (prec : Nat) (a b : Nat) : Fp :=
  let la := natLog2 a
  let lb := natLog2 b
  let g : Int := if b * 2 ^ la ≤ a * 2 ^ lb then (la : Int) - lb else (la : Int) - lb - 1
  let s : Int := g - (prec - 1)
  let N := if 0 ≤ s then a else a * 2 ^ (-s).toNat
  let D := if 0 ≤ s then b * 2 ^ s.toNat else b
  let q := N / D
  let r := N % D
  let m := if D < 2 * r then q + 1 else if 2 * r < D then q else if q % 2 = 0 then q else q + 1
  if m = 2 ^ prec then ⟨(2 : Int) ^ (prec - 1), s + 1⟩ else ⟨(m : Int), s⟩

/-- Round a dyadic integer multiple `M * 2 ^ E` to `prec` bits. -/
def roundDyadic (prec : Nat) (M : Int) (E : Int) : Fp :=
  if M = 0 then fZero
  else
    let f := roundPosRat prec M.natAbs 1
    ⟨(if M < 0 then -f.m else f.m), f.e + E⟩

/-- `u64 as f64` (and any `Nat` literal to float) — exact rounding. -/
def natToF (prec : Nat) (n : Nat) : Fp :=
  roundDyadic prec (n : Int) 0

/-- Float addition: exact sum of the two dyadic values, then rounding. -/
def fAdd (prec : Nat) (x y : Fp) : Fp :=
  let e := min x.e y.e
  roundDyadic prec (x.m * 2 ^ (x.e - e).toNat + y.m * 2 ^ (y.e - e).toNat) e

/-- Float subtraction. -/
def fSub (prec : Nat) (x y : Fp) : Fp :=
  let e := min x.e y.e
  roundDyadic prec (x.m * 2 ^ (x.e - e).toNat - y.m * 2 ^ (y.e - e).toNat) e

/-- Float multiplication. -/
def fMul (prec : Nat) (x y : Fp) : Fp :=
  roundDyadic prec (x.m * y.m) (x.e + y.e)

/-- Float division (the divisors reached by this program are nonzero; a zero
divisor, which IEEE maps to an infinity or NaN, is given the junk value 0). -/
def fDiv (prec : Nat) (x y : Fp) : Fp :=
  if x.m = 0 ∨ y.m = 0 then fZero
  else
    let f := roundPosRat prec x.m.natAbs y.m.natAbs
    ⟨(if (x.m < 0) ≠ (y.m < 0) then -f.m else f.m), f.e + x.e - y.e⟩

/-- `f64 as u64` in Rust: truncate toward zero and saturate to
`[0, u64::MAX]` (the values reached here are finite and nonnegative). -/
def fToU64 (x : Fp) : Nat :=
  if x.m ≤ 0 then 0
  else
    let v := if 0 ≤ x.e then x.m.toNat * 2 ^ x.e.toNat else x.m.toNat / 2 ^ (-x.e).toNat
    min v (2 ^ 64 - 1)

/-! ## Modelled hash functions (external crates, not under `src/`) -/

/-- Modelled from the spec: a keyed 64-bit hash of an input byte slice
("two 64-bit seeds `(s0, s1)`; `h1`, `h2` are two keyed 64-bit hashes of the
input byte slice", section 4.2).  The concrete mixing below (an FNV-1a style
fold seeded by the key pair) stands in for the SipHash implementation of the
external `bloomfilter` crate, whose source is not part of this repository. -/
def keyedHash64 (k0 k1 : Nat) (bytes : List Nat) : Nat :=
  bytes.foldl (fun h b => (h ^^^ b) * 1099511628211 % 2 ^ 64)
    ((k0 * 31 + k1 * 7 + 14695981039346656037) % 2 ^ 64)

/-- Modelled from the spec: the unkeyed 64-bit line hash of the Xxh filter
("`h = keyed_64bit_hash(value)`", section 4.3).  It stands in for `xxh3_64`
of the external `xxhash-rust` crate, whose source is not part of this
repository. -/
def xxh3 (bytes : List Nat) : Nat :=
  keyedHash64 0 0 bytes

/-! ## Construction metadata (`main.rs`) -/

/-- `ConstructionType` with its `repr(u8)` discriminants 0, 1, 2. -/
inductive ConstructionType where
  | BloomLinesAndSize
  | BloomLinesAndErrorRate
  | XXHLimitAndSize
  deriving DecidableEq, Repr

/-- `ConstructionType as u8` (the declaration order in `main.rs` gives
`BloomLinesAndSize = 0`, `BloomLinesAndErrorRate = 1`,
`XXHLimitAndSize = 2`). -/
def ConstructionType.toByte : ConstructionType → Nat
  | .BloomLinesAndSize => 0
  | .BloomLinesAndErrorRate => 1
  | .XXHLimitAndSize => 2

/-- `ConstructionType::try_from(u8)` (via `num_enum::TryFromPrimitive`);
the `.unwrap()` on an unknown discriminant panics, hence `Option`. -/
def ConstructionType.fromByte : Nat → Option ConstructionType
  | 0 => some .BloomLinesAndSize
  | 1 => some .BloomLinesAndErrorRate
  | 2 => some .XXHLimitAndSize
  | _ => none

/-- `ConstructionDetails`.  `error_rate` is an `f64` that is only ever
serialized bit-for-bit (`write_f64` / `read_f64`), so it is modelled by its
64-bit IEEE-754 bit pattern. -/
structure ConstructionDetails where
  ctype : ConstructionType
  limit : Nat
  errorRateBits : Nat
  size : Nat
  deriving DecidableEq, Repr

/-- `DataSource`. -/
inductive DataSource where
  | Memory
  | File
  deriving DecidableEq, Repr

/-- `ContainerDetails`. -/
structure ContainerDetails where
  path : String
  dataSource : DataSource
  cd : ConstructionDetails
  deriving DecidableEq, Repr

/-! ## `MemoryContainerXXH` (`container_memory_xxh.rs`) -/

/-- The state of a `MemoryContainerXXH`. -/
structure XxhState where
  details : ContainerDetails
  numWrites : Nat
  maxWrites : Nat
  bits : List Bool
  keyBits : Nat
  slotBits : Nat
  numSlots : Nat
  numTries : Nat
  deriving DecidableEq, Repr

/-- `remap`: `out_min + (value - in_min) * (out_max - out_min) / (in_max - in_min)`
in `f64` arithmetic. -/
def remap (value inMin inMax outMin outMax : Fp) : Fp :=
  fAdd 53 outMin
    (fDiv 53 (fMul 53 (fSub 53 value inMin) (fSub 53 outMax outMin)) (fSub 53 inMax inMin))

/-- `calc_slot_index`.  When `num_slots = 0` the Rust code panics
(`num_slots - 1` underflows in debug builds, and `% num_slots` is a division
by zero in any build), hence `none`; otherwise the `f64` remap of the hash
into `[0, num_slots - 1]`, cast to `u64`, mod `num_slots`. -/
def calcSlotIndex (numSlots : Nat) (hash : Nat) : Option Nat :=
  if numSlots = 0 then none
  else some (fToU64 (remap (natToF 53 hash) fZero (natToF 53 (2 ^ 64 - 1))
                      fZero (natToF 53 (numSlots - 1))) % numSlots)

/-- `get_bit_vec_slice` restricted to the shape used by `read_key`:
reads `count` bits starting at `from`, bit `from + i` contributing `2 ^ i`
(the source ors in `1 << i`). -/
def getBitVecSlice (bits : List Bool) (start count : Nat) : Option Nat :=
  match count with
  | 0 => some 0
  | c + 1 =>
    match bvGet bits start with
    | none => none
    | some b =>
      (getBitVecSlice bits (start + 1) c).map (fun r => r * 2 + (if b then 1 else 0))

/-- `set_bit_vec_slice` restricted to the shape used by `write_key`:
writes the low `count` bits of `key`, bit `from + i` receiving bit `i`. -/
def setBitVecSlice (bits : List Bool) (start count key : Nat) : Option (List Bool) :=
  match count with
  | 0 => some bits
  | c + 1 =>
    match bvSet bits start (key % 2 = 1) with
    | none => none
    | some bits' => setBitVecSlice bits' (start + 1) c (key / 2)

/-- `get_hash_key_value`: the low `key_bits` bits of the hash. -/
def getHashKeyValue (keyBits hash : Nat) : Nat :=
  hash % 2 ^ keyBits

/-- `write_key`: marks slot `slot_idx % num_slots` occupied, stores the key in
its key bits, and increments `num_writes`. -/
def writeKey (st : XxhState) (slotIdx key : Nat) : Option XxhState :=
  let s := slotIdx % st.numSlots
  match bvSet st.bits (s * st.slotBits) true with
  | none => none
  | some bits1 =>
    match setBitVecSlice bits1 (s * st.slotBits + 1) st.keyBits key with
    | none => none
    | some bits2 => some { st with bits := bits2, numWrites := st.numWrites + 1 }

/-- `read_key`: the key bits of slot `slot_idx % num_slots`. -/
def readKey (st : XxhState) (slotIdx : Nat) : Option Nat :=
  getBitVecSlice st.bits ((slotIdx % st.numSlots) * st.slotBits + 1) st.keyBits

/-- `get_slot_in_use`: the first bit of slot `slot_idx % num_slots`. -/
def getSlotInUse (st : XxhState) (slotIdx : Nat) : Option Bool :=
  bvGet st.bits ((slotIdx % st.numSlots) * st.slotBits)

/-- The loop body of `insert_key`, iterating over the probe offsets
`0, 1, ..., num_tries - 1`.  Falling through the loop returns `false`
without inserting (the fail-open case). -/
def insertKeyGo (st : XxhState) (slotIdx keyVal : Nat) : List Nat → Option (Bool × XxhState)
  | [] => some (false, st)
  | i :: rest =>
    match getSlotInUse st (slotIdx + i) with
    | none => none
    | some true =>
      match readKey st (slotIdx + i) with
      | none => none
      | some k =>
        if k = keyVal then some (true, st)
        else insertKeyGo st slotIdx keyVal rest
    | some false =>
      (writeKey st (slotIdx + i) keyVal).map (fun st' => (false, st'))

/-- `insert_key`. -/
def insertKey (st : XxhState) (slotIdx hash numTries : Nat) : Option (Bool × XxhState) :=
  insertKeyGo st slotIdx (getHashKeyValue st.keyBits hash) (List.range numTries)

/-- The loop body of `find_key`. Falling through the loop returns `true`
(all probed slots occupied, none matching: conservative "probably present"). -/
def findKeyGo (st : XxhState) (slotIdx keyVal : Nat) : List Nat → Option Bool
  | [] => some true
  | i :: rest =>
    match getSlotInUse st (slotIdx + i) with
    | none => none
    | some false => some false
    | some true =>
      match readKey st (slotIdx + i) with
      | none => none
      | some k =>
        if k = keyVal then some true
        else findKeyGo st slotIdx keyVal rest

/-- `find_key`. -/
def findKey (st : XxhState) (slotIdx hash numTries : Nat) : Option Bool :=
  findKeyGo st slotIdx (getHashKeyValue st.keyBits hash) (List.range numTries)

/-- `MemoryContainerXXH::set`: note the double increment of `num_writes` when
`insert_key` inserts (once inside `write_key`, once in `set` itself). -/
def xxhSet (st : XxhState) (value : List Nat) : Option XxhState :=
  let hash := xxh3 value
  match calcSlotIndex st.numSlots hash with
  | none => none
  | some slotIdx =>
    match insertKey st slotIdx hash st.numTries with
    | none => none
    | some (_, st') => some { st' with numWrites := st'.numWrites + 1 }

/-- `MemoryContainerXXH::check`. -/
def xxhCheck (st : XxhState) (value : List Nat) : Option Bool :=
  let hash := xxh3 value
  match calcSlotIndex st.numSlots hash with
  | none => none
  | some slotIdx => findKey st slotIdx hash st.numTries

/-- `MemoryContainerXXH::check_and_set`. -/
def xxhCheckAndSet (st : XxhState) (value : List Nat) : Option (Bool × XxhState) :=
  let hash := xxh3 value
  match calcSlotIndex st.numSlots hash with
  | none => none
  | some slotIdx => insertKey st slotIdx hash st.numTries

/-- `MemoryContainerXXH::is_full`. -/
def xxhIsFull (st : XxhState) : Bool :=
  st.maxWrites ≤ st.numWrites

/-- `MemoryContainerXXH::get_usage` (an `f32` computation;
`100.0f32 / len * writes`). -/
def xxhUsage (st : XxhState) : Fp :=
  fMul 24 (fDiv 24 (natToF 24 100) (natToF 24 st.bits.length)) (natToF 24 st.numWrites)

/-- `MemoryContainerXXH::new_limit_and_size`.  Both the bit length
(`size as usize * 8`) and the slot count (`(size * 8) / 21` in `u64`) are
computed in 64-bit machine arithmetic, which wraps around in release
builds: for `size ≥ 2^61` the product `size * 8` is taken mod `2^64`. -/
def xxhNew (details : ContainerDetails) : XxhState :=
  { details := details
    numWrites := 0
    maxWrites := details.cd.limit
    bits := List.replicate (details.cd.size * 8 % 2 ^ 64) false
    keyBits := 20
    slotBits := 21
    numSlots := details.cd.size * 8 % 2 ^ 64 / 21
    numTries := 4 }

/-! ## The Bloom filter of the external `bloomfilter` crate

Modelled from the spec: "`k` hash positions are `(h1 + i·h2) mod m` for
`i ∈ [0,k)`, where `h1`, `h2` are two keyed 64-bit hashes of the input byte
slice" with the two seed pairs persisted as `sip_keys` (sections 4.2 and 6).
The crate itself is not part of this repository. -/

/-- State of a `bloomfilter::Bloom<String>`: bit count `m`, hash count `k`,
the two sip key pairs, and the bit vector. -/
structure BloomFilter where
  m : Nat
  k : Nat
  key00 : Nat
  key01 : Nat
  key10 : Nat
  key11 : Nat
  bits : List Bool
  deriving DecidableEq, Repr

/-- Modelled from the spec: the two keyed 64-bit hashes `h1`, `h2` of the
input (section 4.2). -/
def bloomHashes (f : BloomFilter) (value : List Nat) : Nat × Nat :=
  (keyedHash64 f.key00 f.key01 value, keyedHash64 f.key10 f.key11 value)

/-- The `i`-th bit position: `(h1 + i * h2) mod m` in wrapping `u64`
arithmetic; `m = 0` is a division by zero (panic), handled by the callers. -/
def bloomPosition (m h1 h2 i : Nat) : Nat :=
  (h1 + i * h2) % 2 ^ 64 % m

/-- The conjunction of the bits at positions `0 ≤ i < count` (the loop of
the crate's `check`); `none` on an out-of-range bit index. -/
def bloomCheckGo (bits : List Bool) (m h1 h2 : Nat) : Nat → Option Bool
  | 0 => some true
  | c + 1 =>
    match bvGet bits (bloomPosition m h1 h2 c) with
    | none => none
    | some b => (bloomCheckGo bits m h1 h2 c).map (fun r => r && b)

/-- Sets the bits at positions `0 ≤ i < count` (the loop of the crate's
`set`). -/
def bloomSetGo (bits : List Bool) (m h1 h2 : Nat) : Nat → Option (List Bool)
  | 0 => some bits
  | c + 1 =>
    match bloomSetGo bits m h1 h2 c with
    | none => none
    | some bs => bvSet bs (bloomPosition m h1 h2 c) true

/-- Modelled from the spec: `check` returns true iff all `k` bits are set
(section 4.2).  `none` models the panics on `m = 0` (mod by zero) and on a
bit index beyond the bitmap. -/
def bloomCheck (f : BloomFilter) (value : List Nat) : Option Bool :=
  if f.m = 0 then none
  else
    let p := bloomHashes f value
    bloomCheckGo f.bits f.m p.1 p.2 f.k

/-- Modelled from the spec: `set` writes all `k` bits (section 4.2). -/
def bloomSetBits (f : BloomFilter) (value : List Nat) : Option BloomFilter :=
  if f.m = 0 then none
  else
    let p := bloomHashes f value
    (bloomSetGo f.bits f.m p.1 p.2 f.k).map (fun bits => { f with bits := bits })

/-- Modelled from the spec: `check_and_set` returns the conjunction of the
pre-set state of all `k` bits and always writes all `k` bits (section 4.2). -/
def bloomFilterCheckAndSet (f : BloomFilter) (value : List Nat) : Option (Bool × BloomFilter) :=
  match bloomCheck f value with
  | none => none
  | some had =>
    match bloomSetBits f value with
    | none => none
    | some f' => some (had, f')

/-- The binary64 constant `std::f64::consts::LN_2`
(`6243314768165359 / 2 ^ 53`). -/
def ln2F : Fp := ⟨6243314768165359, -53⟩

/-- Modelled from the spec: the derived hash count
"`k = round((m/capacity)·ln 2)`", "clamped to `[1, 64]`" (section 4.2),
with the arithmetic performed in binary64 and `f64::round` rounding half
away from zero. -/
def optimalKNum (m limit : Nat) : Nat :=
  let x := fMul 53 (fDiv 53 (natToF 53 m) (natToF 53 limit)) ln2F
  let r := if x.m ≤ 0 then 0
           else if 0 ≤ x.e then x.m.toNat * 2 ^ x.e.toNat
           else (x.m.toNat / 2 ^ (-x.e).toNat)
             + (if 2 ^ (-x.e).toNat ≤ 2 * (x.m.toNat % 2 ^ (-x.e).toNat) then 1 else 0)
  min 64 (max 1 r)

/-- `Bloom::new(bitmap_size, items_count)` with the random sip keys passed
explicitly (the crate draws them from a random source at construction;
the spec allows any seed source, section 9). -/
def bloomFilterNew (sizeBytes limit k00 k01 k10 k11 : Nat) : BloomFilter :=
  { m := sizeBytes * 8
    k := optimalKNum (sizeBytes * 8) limit
    key00 := k00, key01 := k01, key10 := k10, key11 := k11
    bits := List.replicate (sizeBytes * 8) false }

/-- `Bloom::from_existing(bitmap, bitmap_bits, k_num, sip_keys)`.
Note that `load_content` passes the stored `limit` (the capacity) as
`k_num`, and `size * 8` as `bitmap_bits`. -/
def bloomFilterFromExisting (bytes : List Nat) (bitmapBits kNum k00 k01 k10 k11 : Nat) :
    BloomFilter :=
  { m := bitmapBits
    k := kNum
    key00 := k00, key01 := k01, key10 := k10, key11 := k11
    bits := bytesToBits bytes }

/-! ## `MemoryContainerBloom` (`container_memory_bloom.rs`) -/

/-- The state of a `MemoryContainerBloom`. -/
structure BloomState where
  details : ContainerDetails
  numWrites : Nat
  maxWrites : Nat
  filter : BloomFilter
  deriving DecidableEq, Repr

/-- `MemoryContainerBloom::set`. -/
def bloomSet (st : BloomState) (value : List Nat) : Option BloomState :=
  (bloomSetBits st.filter value).map
    (fun f => { st with filter := f, numWrites := st.numWrites + 1 })

/-- `MemoryContainerBloom::check`. -/
def bloomStCheck (st : BloomState) (value : List Nat) : Option Bool :=
  bloomCheck st.filter value

/-- `MemoryContainerBloom::check_and_set` (increments `num_writes` only when
the value was not already present). -/
def bloomStCheckAndSet (st : BloomState) (value : List Nat) : Option (Bool × BloomState) :=
  (bloomFilterCheckAndSet st.filter value).map
    (fun p => (p.1, { st with filter := p.2,
                              numWrites := if p.1 then st.numWrites else st.numWrites + 1 }))

/-- `MemoryContainerBloom::is_full`. -/
def bloomIsFull (st : BloomState) : Bool :=
  st.maxWrites ≤ st.numWrites

/-- `MemoryContainerBloom::get_usage` (`100.0f32 / bit_vec.len() * writes`). -/
def bloomUsage (st : BloomState) : Fp :=
  fMul 24 (fDiv 24 (natToF 24 100) (natToF 24 st.filter.bits.length)) (natToF 24 st.numWrites)

/-- `MemoryContainerBloom::new_limit_and_size` (the sip keys drawn at
construction are passed explicitly). -/
def bloomNewLimitAndSize (details : ContainerDetails) (k00 k01 k10 k11 : Nat) : BloomState :=
  { details := details
    numWrites := 0
    maxWrites := details.cd.limit
    filter := bloomFilterNew details.cd.size details.cd.limit k00 k01 k10 k11 }

/-- `MemoryContainerBloom::new_limit_and_error_rate`.
Modelled from the spec: `Bloom::new_for_fp_rate` derives
`m = ceil(-capacity·ln(p) / (ln 2)²)` (section 4.2); the real-logarithm
computation of the external crate is not executable here, so the derived
pair `(m, k)` is taken as an explicit argument, constrained in the theorems
by the bounds the formulas guarantee (`m ≥ 1`, `1 ≤ k ≤ 64`). -/
def bloomNewLimitAndErrorRate (details : ContainerDetails) (mDerived kDerived : Nat)
    (k00 k01 k10 k11 : Nat) : BloomState :=
  { details := details
    numWrites := 0
    maxWrites := details.cd.limit
    filter := { m := mDerived, k := kDerived,
                key00 := k00, key01 := k01, key10 := k10, key11 := k11,
                bits := List.replicate mDerived false } }

/-! ## The container trait object (`Box<dyn Container>` in `container.rs`) -/

/-- A container: one of the two filter implementations. -/
inductive Cont where
  | xxh (st : XxhState)
  | bloomC (st : BloomState)
  deriving DecidableEq, Repr

/-- `Container::set`. -/
def contSet (c : Cont) (value : List Nat) : Option Cont :=
  match c with
  | .xxh st => (xxhSet st value).map .xxh
  | .bloomC st => (bloomSet st value).map .bloomC

/-- `Container::check`. -/
def contCheck (c : Cont) (value : List Nat) : Option Bool :=
  match c with
  | .xxh st => xxhCheck st value
  | .bloomC st => bloomStCheck st value

/-- `Container::check_and_set`. -/
def contCheckAndSet (c : Cont) (value : List Nat) : Option (Bool × Cont) :=
  match c with
  | .xxh st => (xxhCheckAndSet st value).map (fun p => (p.1, .xxh p.2))
  | .bloomC st => (bloomStCheckAndSet st value).map (fun p => (p.1, .bloomC p.2))

/-- `Container::is_full`. -/
def contIsFull (c : Cont) : Bool :=
  match c with
  | .xxh st => xxhIsFull st
  | .bloomC st => bloomIsFull st

/-- `Container::get_container_details`. -/
def contDetails (c : Cont) : ContainerDetails :=
  match c with
  | .xxh st => st.details
  | .bloomC st => st.details

/-- `Container::get_num_writes`. -/
def contNumWrites (c : Cont) : Nat :=
  match c with
  | .xxh st => st.numWrites
  | .bloomC st => st.numWrites

/-- `Container::get_num_max_writes`. -/
def contNumMaxWrites (c : Cont) : Nat :=
  match c with
  | .xxh st => st.maxWrites
  | .bloomC st => st.maxWrites

/-- `Container::get_write_level` (`100.0f32 / max as f32 * writes as f32`). -/
def contWriteLevel (c : Cont) : Fp :=
  fMul 24 (fDiv 24 (natToF 24 100) (natToF 24 (contNumMaxWrites c % 2 ^ 64)))
    (natToF 24 (contNumWrites c % 2 ^ 64))

/-- `Container::get_usage`. -/
def contUsage (c : Cont) : Fp :=
  match c with
  | .xxh st => xxhUsage st
  | .bloomC st => bloomUsage st

/-! ## The container file format (`Container::save` / `from_file`) -/

/-- The file magic `0xB1008811`. -/
def MAGIC : Nat := 2969602065

/-- The 128-byte header written by `Container::save`: big-endian magic,
kind discriminant byte, then `size`, `limit`, `error_rate` (bit pattern),
`num_writes`, `max_writes` as little-endian `u64`, then 83 zero bytes. -/
def headerBytes (c : Cont) : List Nat :=
  be4 MAGIC ++ [(contDetails c).cd.ctype.toByte]
    ++ le8 (contDetails c).cd.size ++ le8 (contDetails c).cd.limit
    ++ le8 (contDetails c).cd.errorRateBits
    ++ le8 (contNumWrites c) ++ le8 (contNumMaxWrites c)
    ++ List.replicate 83 0

/-- The payload written by `save_content`: for the Bloom variants the four
sip keys followed by the bitmap bytes, for the Xxh variant the bitmap bytes
only. -/
def payloadBytes (c : Cont) : List Nat :=
  match c with
  | .xxh st => bitsToBytes st.bits
  | .bloomC st =>
      le8 st.filter.key00 ++ le8 st.filter.key01 ++ le8 st.filter.key10
        ++ le8 st.filter.key11 ++ bitsToBytes st.filter.bits

/-- All bytes a `save` call writes to the file. -/
def saveBytes (c : Cont) : List Nat :=
  headerBytes c ++ payloadBytes c

/-- A file-system operation performed by `save`, for reasoning about the
write protocol (in-place overwrite versus write-to-temp-and-rename). -/
inductive FsOp where
  | create (path : String)
  | writeBytes (bytes : List Nat)
  | rename (src dst : String)
  deriving DecidableEq, Repr

/-- Whether an operation is a rename. -/
def FsOp.isRen : FsOp → Bool
  | .rename _ _ => true
  | _ => false

/-- The sequence of file-system operations performed by `Container::save`:
`File::create` on the destination path itself (which truncates any existing
file in place), then the header writes, then the `save_content` writes.
There is no temporary file, no rename and no flush barrier in the source. -/
def saveOps (c : Cont) : List FsOp :=
  [FsOp.create (contDetails c).path, FsOp.writeBytes (headerBytes c),
   FsOp.writeBytes (payloadBytes c)]

/-- The bytes written by a sequence of file-system operations. -/
def writtenBytes (ops : List FsOp) : List Nat :=
  ops.flatMap (fun op => match op with | .writeBytes bs => bs | _ => [])

/-- `<dyn Container>::from_file`, reading from an in-memory byte list.
`none` models every panic / `process::exit` on the way: short reads, a
magic mismatch, an unknown kind discriminant.
For the by-error-rate Bloom kind the intermediate filter built by
`from_details` is immediately replaced by `load_content`, so its modelled
`(m, k)` derivation is irrelevant here and instantiated with `(0, 0)`. -/
def fromFileBytes (path : String) (bytes : List Nat) : Option Cont :=
  match readU32BE bytes with
  | none => none
  | some (magic, r1) =>
    if magic ≠ MAGIC then none
    else
      match r1 with
      | [] => none
      | kindByte :: r2 =>
        match ConstructionType.fromByte kindByte with
        | none => none
        | some ct =>
          match readU64LE r2 with
          | none => none
          | some (size, r3) =>
            match readU64LE r3 with
            | none => none
            | some (limit, r4) =>
              match readU64LE r4 with
              | none => none
              | some (errBits, r5) =>
                match readU64LE r5 with
                | none => none
                | some (numW, r6) =>
                  match readU64LE r6 with
                  | none => none
                  | some (maxW, r7) =>
                    if r7.length < 83 then none
                    else
                      let r8 := r7.drop 83
                      let details : ContainerDetails :=
                        { path := path, dataSource := .File,
                          cd := { ctype := ct, limit := limit,
                                  errorRateBits := errBits, size := size } }
                      match ct with
                      | .XXHLimitAndSize =>
                          some (.xxh { xxhNew details with
                                        numWrites := numW, maxWrites := maxW,
                                        bits := bytesToBits r8 })
                      | _ =>
                          match readU64LE r8 with
                          | none => none
                          | some (k00, r9) =>
                            match readU64LE r9 with
                            | none => none
                            | some (k01, r10) =>
                              match readU64LE r10 with
                              | none => none
                              | some (k10, r11) =>
                                match readU64LE r11 with
                                | none => none
                                | some (k11, r12) =>
                                  some (.bloomC
                                    { details := details
                                      numWrites := numW
                                      maxWrites := maxW
                                      filter := bloomFilterFromExisting r12
                                        (size * 8 % 2 ^ 64) (limit % 2 ^ 32)
                                        k00 k01 k10 k11 })

/-! ## The streaming pipeline (`process.rs`) -/

/-- The per-run flags consumed by `process` (the debug and buffering flags
only affect stderr diagnostics and are omitted). -/
structure Flags where
  writeMode : Bool
  inverse : Bool
  silent : Bool
  deriving DecidableEq, Repr

/-- The loop of the cursor-advancement step, with the explicit fuel
`cs.length - cur` (enough for the loop to run to completion). -/
def advanceGo (cs : List Cont) : Nat → Nat → Nat
  | 0, cur => cur
  | fuel + 1, cur =>
    if h : cur < cs.length then
      if contIsFull cs[cur] then advanceGo cs fuel (cur + 1) else cur
    else cur

/-- Step 1 of `process_line`: advance the writable cursor past full
containers (`while idx < len && containers[idx].is_full() { idx += 1 }`). -/
def advanceCursor (cs : List Cont) (cur : Nat) : Nat :=
  advanceGo cs (cs.length - cur) cur

/-- Step 2 of `process_line`: the scan loop over the containers.
Returns `(value_found, value_written, updated containers)`; `none` models a
panic inside a filter operation.  At the writable cursor (in write mode) the
loop calls `check_and_set` and breaks only when the value was found;
elsewhere it calls `check` and breaks when the value was found, marking it
as already written. -/
def scanFrom (couldWrite : Bool) (cursor : Nat) (line : List Nat) :
    Nat → List Cont → Option (Bool × Bool × List Cont)
  | _, [] => some (false, false, [])
  | idx, c :: rest =>
    if couldWrite ∧ idx = cursor then
      match contCheckAndSet c line with
      | none => none
      | some (f, c') =>
        if f then some (true, true, c' :: rest)
        else (scanFrom couldWrite cursor line (idx + 1) rest).map
               (fun r => (r.1, r.2.1, c' :: r.2.2))
    else
      match contCheck c line with
      | none => none
      | some f =>
        if f then some (true, true, c :: rest)
        else (scanFrom couldWrite cursor line (idx + 1) rest).map
               (fun r => (r.1, r.2.1, c :: r.2.2))

/-- Step 4 of `process_line`: the bytes printed for the line, considering
the inverse and silent modes (`emit = (¬found ∧ ¬inverse) ∨ (found ∧ inverse)`,
suppressed by `silent`). -/
def emitBytes (p : Flags) (found : Bool) (line : List Nat) : List Nat :=
  if ((!found && !p.inverse) || (found && p.inverse)) && !p.silent then line ++ [10] else []

/-- `process_line`: returns the updated containers, the updated writable
cursor, and the bytes written to stdout for this line.  Step 3 (the
post-scan `set` on the writable container when the value was found but not
yet written) is kept although the scan loop never exits with
`value_found = true` and `value_written = false`. -/
def processLine (p : Flags) (cs : List Cont) (cur : Nat) (line : List Nat) :
    Option (List Cont × Nat × List Nat) :=
  let cur1 := if p.writeMode then advanceCursor cs cur else cur
  let couldWrite := p.writeMode && decide (cur1 < cs.length)
  match scanFrom couldWrite cur1 line 0 cs with
  | none => none
  | some (found, written, cs1) =>
    if found && couldWrite && !written then
      match cs1[cur1]? with
      | none => none
      | some c =>
        match contSet c line with
        | none => none
        | some c' => some (cs1.set cur1 c', cur1, emitBytes p found line)
    else some (cs1, cur1, emitBytes p found line)

/-- The scan loop as claim C4 words it (a second definition following the
claim, for comparison with `scanFrom` from the source): when the scan
reaches the writable cursor it calls `check_and_set`, records found and
written as that call's result, and always stops there, so containers at
larger indices are never queried. -/
def scanFromClaimC4 (couldWrite : Bool) (cursor : Nat) (line : List Nat) :
    Nat → List Cont → Option (Bool × Bool × List Cont)
  | _, [] => some (false, false, [])
  | idx, c :: rest =>
    if couldWrite ∧ idx = cursor then
      match contCheckAndSet c line with
      | none => none
      | some (f, c') => some (f, f, c' :: rest)
    else
      match contCheck c line with
      | none => none
      | some f =>
        if f then some (true, true, c :: rest)
        else (scanFromClaimC4 couldWrite cursor line (idx + 1) rest).map
               (fun r => (r.1, r.2.1, c :: r.2.2))

/-- `process_line` as claim C4 describes it: identical to `processLine`
except that the scan always breaks at the writable cursor. -/
def processLineClaimC4 (p : Flags) (cs : List Cont) (cur : Nat) (line : List Nat) :
    Option (List Cont × Nat × List Nat) :=
  let cur1 := if p.writeMode then advanceCursor cs cur else cur
  let couldWrite := p.writeMode && decide (cur1 < cs.length)
  match scanFromClaimC4 couldWrite cur1 line 0 cs with
  | none => none
  | some (found, written, cs1) =>
    if found && couldWrite && !written then
      match cs1[cur1]? with
      | none => none
      | some c =>
        match contSet c line with
        | none => none
        | some c' => some (cs1.set cur1 c', cur1, emitBytes p found line)
    else some (cs1, cur1, emitBytes p found line)

/-- Splits the raw stdin byte stream into lines the way the
`read_until(b'\n', ..)` loop of `process` does: the delimiter is consumed
and stripped, a final line without a newline is still produced, and a
trailing newline does not produce an extra empty line. -/
def splitLines : List Nat → List (List Nat)
  | [] => []
  | b :: rest =>
    if b = 10 then [] :: splitLines rest
    else
      match splitLines rest with
      | [] => [[b]]
      | l :: ls => (b :: l) :: ls

/-- The body of the main loop of `process` for an already split line:
valid UTF-8 lines go through `process_line`; lines that are not valid UTF-8
are written back verbatim (plus a newline), unconditionally, without ever
touching the containers. -/
def processLines (p : Flags) : List (List Nat) → List Cont → Nat →
    Option (List Cont × Nat × List Nat)
  | [], cs, cur => some (cs, cur, [])
  | l :: ls, cs, cur =>
    if validUtf8 l then
      match processLine p cs cur l with
      | none => none
      | some (cs', cur', out) =>
        (processLines p ls cs' cur').map (fun r => (r.1, r.2.1, out ++ r.2.2))
    else
      (processLines p ls cs cur).map (fun r => (r.1, r.2.1, (l ++ [10]) ++ r.2.2))

/-- The whole pipeline `process`: split stdin, start with cursor 0. -/
def processBytes (p : Flags) (cs : List Cont) (input : List Nat) :
    Option (List Cont × Nat × List Nat) :=
  processLines p (splitLines input) cs 0

/-- The `(containers, cursor)` states before each line of a run (and the
final state), for stating trace invariants.  `none` when the run panics. -/
def lineStates (p : Flags) : List (List Nat) → List Cont → Nat →
    Option (List (List Cont × Nat))
  | [], cs, cur => some [(cs, cur)]
  | l :: ls, cs, cur =>
    if validUtf8 l then
      match processLine p cs cur l with
      | none => none
      | some (cs', cur', _) => (lineStates p ls cs' cur').map (fun t => (cs, cur) :: t)
    else
      (lineStates p ls cs cur).map (fun t => (cs, cur) :: t)

/-- The cursor value after the cursor-advancement step (step 1) of a line
processed from state `s` — in read mode that step is skipped. -/
def advancedCursorOf (p : Flags) (s : List Cont × Nat) : Nat :=
  if p.writeMode then advanceCursor s.1 s.2 else s.2

/-- All containers with index below `cur` are full. -/
def prefixFull (cs : List Cont) (cur : Nat) : Prop :=
  ∀ j c, j < cur → cs[j]? = some c → contIsFull c = true

/-! ## Concrete containers used by witnesses and counterexamples -/

/-- A memory Xxh container declared with `limit 10, size 3` (3 bytes give
`24 / 21 = 1` slot). -/
def cdXxhDemo : ContainerDetails :=
  { path := "m.xxh", dataSource := .Memory,
    cd := { ctype := .XXHLimitAndSize, limit := 10, errorRateBits := 0, size := 3 } }

/-- An Xxh container with `limit 1, size 3`: full after a single insertion. -/
def cdXxhOne : ContainerDetails :=
  { path := "one.xxh", dataSource := .Memory,
    cd := { ctype := .XXHLimitAndSize, limit := 1, errorRateBits := 0, size := 3 } }

/-- The state of a fresh Xxh container after `check_and_set` of one value
(the value d hashes to the single slot and is inserted). -/
def xxhAfter (d : ContainerDetails) (v : List Nat) : XxhState :=
  ((xxhCheckAndSet (xxhNew d) v).getD (false, xxhNew d)).2

/-- Write-mode flags, no inverse, not silent. -/
def flagsWrite : Flags := { writeMode := true, inverse := false, silent := false }

/-- An Xxh container with valid parameters per the claim (`capacity 1`,
`size_bytes 1`) whose slot count is `8 / 21 = 0`. -/
def cdXxhTiny : ContainerDetails :=
  { path := "t.xxh", dataSource := .Memory,
    cd := { ctype := .XXHLimitAndSize, limit := 1, errorRateBits := 0, size := 1 } }

/-- An Xxh container with valid parameters (`capacity 1`,
`size_bytes 2^61`) whose 64-bit product `size_bytes * 8 = 2^64` wraps
around to `0`, so `num_slots = 0 / 21 = 0` and the bit vector is empty. -/
def cdXxhHuge : ContainerDetails :=
  { path := "h.xxh", dataSource := .Memory,
    cd := { ctype := .XXHLimitAndSize, limit := 1, errorRateBits := 0, size := 2 ^ 61 } }

/-- Structural well-formedness of an Xxh container state: at least one
slot, a slot wide enough for the occupied flag plus the key, and a bit
vector covering all slots.  `xxhNew` establishes it whenever
`size_bytes ≥ 3`. -/
def XxhWF (st : XxhState) : Prop :=
  1 ≤ st.numSlots ∧ st.keyBits + 1 ≤ st.slotBits
    ∧ st.numSlots * st.slotBits ≤ st.bits.length

/-- Structural well-formedness of the modelled Bloom filter: at least one
bit, and a bit vector covering all `m` positions. -/
def BloomWF (f : BloomFilter) : Prop :=
  1 ≤ f.m ∧ f.m ≤ f.bits.length

/-- A Bloom container declared with `-bls 2,1` (limit 2, size 1 byte);
the sip keys drawn at construction are `(0, 0)` and `(1, 0)`. -/
def cdBloomDemo : ContainerDetails :=
  { path := "f.blm", dataSource := .File,
    cd := { ctype := .BloomLinesAndSize, limit := 2, errorRateBits := 0, size := 1 } }

/-- Claim C8's write protocol, transcribed: the destination file is never
created (truncated) directly; the content goes to some temporary path which
is then renamed onto the destination. -/
def saveUsesTempAndRename (c : Cont) : Prop :=
  FsOp.create (contDetails c).path ∉ saveOps c
    ∧ ∃ tmp, tmp ≠ (contDetails c).path
        ∧ FsOp.create tmp ∈ saveOps c
        ∧ FsOp.rename tmp (contDetails c).path ∈ saveOps c

/-! ## Byte-encoding and bit-packing lemmas -/

theorem readU64LE_le8 (n : Nat) (h : n < 2 ^ 64) (rest : List Nat) :
    readU64LE (le8 n ++ rest) = some (n, rest) := by
  simp only [le8, List.cons_append, List.nil_append, readU64LE]
  congr 2
  omega

theorem readU64LE_le8_mod (n : Nat) (rest : List Nat) :
    readU64LE (le8 n ++ rest) = some (n % 2 ^ 64, rest) := by
  simp only [le8, List.cons_append, List.nil_append, readU64LE]
  congr 2
  omega

theorem byteToBits_bitsByte (b0 b1 b2 b3 b4 b5 b6 b7 : Bool) :
    byteToBits (bitsByte [b0, b1, b2, b3, b4, b5, b6, b7])
      = [b0, b1, b2, b3, b4, b5, b6, b7] := by
  cases b0 <;> cases b1 <;> cases b2 <;> cases b3 <;>
    cases b4 <;> cases b5 <;> cases b6 <;> cases b7 <;> decide

/-- Round trip of the `bit-vec` byte conversions on bit lengths that are a
multiple of 8 (all container bit vectors have such lengths). -/
theorem bytesToBits_bitsToBytes (bits : List Bool) (h : bits.length % 8 = 0) :
    bytesToBits (bitsToBytes bits) = bits := by
  match bits with
  | [] => simp [bitsToBytes, bytesToBits]
  | [_] | [_, _] | [_, _, _] | [_, _, _, _] | [_, _, _, _, _]
  | [_, _, _, _, _, _] | [_, _, _, _, _, _, _] => simp at h
  | b0 :: b1 :: b2 :: b3 :: b4 :: b5 :: b6 :: b7 :: rest =>
    have hr : rest.length % 8 = 0 := by
      simp only [List.length_cons] at h; omega
    have ih := bytesToBits_bitsToBytes rest hr
    simp only [bitsToBytes, bytesToBits, List.flatMap_cons]
    rw [byteToBits_bitsByte]
    simp only [bytesToBits] at ih
    rw [ih]
    simp

theorem length_bitsToBytes (bits : List Bool) :
    (bitsToBytes bits).length = (bits.length + 7) / 8 := by
  match bits with
  | [] => simp [bitsToBytes]
  | [_] | [_, _] | [_, _, _] | [_, _, _, _] | [_, _, _, _, _]
  | [_, _, _, _, _, _] | [_, _, _, _, _, _, _] => simp [bitsToBytes]
  | b0 :: b1 :: b2 :: b3 :: b4 :: b5 :: b6 :: b7 :: rest =>
    have ih := length_bitsToBytes rest
    simp only [bitsToBytes, List.length_cons, ih]
    omega

/-! ## Header layout lemmas -/

theorem be4_MAGIC : be4 MAGIC = [177, 0, 136, 17] := by decide

theorem saveBytes_shape (c : Cont) :
    saveBytes c
      = 177 :: 0 :: 136 :: 17 :: (contDetails c).cd.ctype.toByte
          :: (le8 (contDetails c).cd.size ++ (le8 (contDetails c).cd.limit
            ++ (le8 (contDetails c).cd.errorRateBits ++ (le8 (contNumWrites c)
              ++ (le8 (contNumMaxWrites c)
                ++ (List.replicate 83 0 ++ payloadBytes c)))))) := by
  rw [saveBytes, headerBytes, be4_MAGIC]
  simp [List.append_assoc]

theorem readU32BE_cons (b0 b1 b2 b3 : Nat) (rest : List Nat) :
    readU32BE (b0 :: b1 :: b2 :: b3 :: rest)
      = some (b0 * 2 ^ 24 + b1 * 2 ^ 16 + b2 * 2 ^ 8 + b3, rest) := by
  rw [readU32BE]

theorem readU32BE_magic (rest : List Nat) :
    readU32BE (177 :: 0 :: 136 :: 17 :: rest) = some (MAGIC, rest) := by
  rw [readU32BE_cons]
  norm_num [MAGIC]

/-! ## Claim C9 -/

/-- Claim C9: the saved header is exactly 128 bytes — 4 bytes of big-endian
magic `0xB1008811`, the kind discriminant byte at offset 4 (0 = Bloom by
capacity and size, 1 = Bloom by capacity and error rate, 2 = Xxh), the five
little-endian 8-byte fields `size`, `capacity`, `error_rate` (bit pattern),
`writes_observed`, `writes_max` at offsets 5, 13, 21, 29, 37, and 83 zero
reserved bytes at offset 45 — with the payload starting at offset 128; and
`from_file` rejects any input whose first four bytes are not the magic
(before looking at anything else), ignores the content of the 83 reserved
bytes, and reads the fields back from the same offsets (shown for the Xxh
kind; each `u64` field is read back modulo `2^64`, which is the identity on
everything `save` can write). -/
theorem c9_header_layout :
    (∀ c : Cont,
      (saveBytes c).take 4 = [177, 0, 136, 17]
        ∧ (saveBytes c)[4]? = some (contDetails c).cd.ctype.toByte
        ∧ ((saveBytes c).drop 5).take 8 = le8 (contDetails c).cd.size
        ∧ ((saveBytes c).drop 13).take 8 = le8 (contDetails c).cd.limit
        ∧ ((saveBytes c).drop 21).take 8 = le8 (contDetails c).cd.errorRateBits
        ∧ ((saveBytes c).drop 29).take 8 = le8 (contNumWrites c)
        ∧ ((saveBytes c).drop 37).take 8 = le8 (contNumMaxWrites c)
        ∧ ((saveBytes c).drop 45).take 83 = List.replicate 83 0
        ∧ (saveBytes c).drop 128 = payloadBytes c)
      ∧ (ConstructionType.toByte .BloomLinesAndSize = 0
          ∧ ConstructionType.toByte .BloomLinesAndErrorRate = 1
          ∧ ConstructionType.toByte .XXHLimitAndSize = 2)
      ∧ (∀ (path : String) (bs : List Nat), (∀ b ∈ bs.take 4, b < 256) →
          bs.take 4 ≠ [177, 0, 136, 17] → fromFileBytes path bs = none)
      ∧ (∀ (path : String) (k s l e w x : Nat) (r r' pay : List Nat),
          r.length = 83 → r'.length = 83 →
          fromFileBytes path (be4 MAGIC ++ [k] ++ le8 s ++ le8 l ++ le8 e
              ++ le8 w ++ le8 x ++ r ++ pay)
            = fromFileBytes path (be4 MAGIC ++ [k] ++ le8 s ++ le8 l ++ le8 e
              ++ le8 w ++ le8 x ++ r' ++ pay))
      ∧ (∀ (path : String) (s l e w x : Nat) (pay : List Nat),
          fromFileBytes path (be4 MAGIC ++ [2] ++ le8 s ++ le8 l ++ le8 e
              ++ le8 w ++ le8 x ++ List.replicate 83 0 ++ pay)
            = some (Cont.xxh
                { xxhNew { path := path, dataSource := .File,
                           cd := { ctype := .XXHLimitAndSize, limit := l % 2 ^ 64,
                                   errorRateBits := e % 2 ^ 64, size := s % 2 ^ 64 } } with
                  numWrites := w % 2 ^ 64, maxWrites := x % 2 ^ 64,
                  bits := bytesToBits pay })) := by
  refine ⟨?_, ⟨rfl, rfl, rfl⟩, ?_, ?_, ?_⟩
  · intro c
    rw [saveBytes_shape]
    refine ⟨rfl, rfl, ?_, ?_, ?_, ?_, ?_, ?_, ?_⟩
    · simp [le8]
    · simp [le8]
    · simp [le8]
    · simp [le8]
    · simp [le8]
    · simp only [List.drop_succ_cons, List.drop_zero, le8, List.cons_append,
        List.nil_append]
      rw [List.take_left' (by simp)]
    · simp only [List.drop_succ_cons, List.drop_zero, le8, List.cons_append,
        List.nil_append]
      rw [List.drop_left' (by simp)]
  · intro path bs hb hne
    match bs with
    | [] => rw [fromFileBytes]; rfl
    | [_] => rw [fromFileBytes]; rfl
    | [_, _] => rw [fromFileBytes]; rfl
    | [_, _, _] => rw [fromFileBytes]; rfl
    | b0 :: b1 :: b2 :: b3 :: rest =>
      rw [fromFileBytes, readU32BE_cons]
      dsimp only
      rw [if_pos ?_]
      intro hmagic
      have h0 : b0 < 256 := hb b0 (by simp)
      have h1 : b1 < 256 := hb b1 (by simp)
      have h2 : b2 < 256 := hb b2 (by simp)
      have h3 : b3 < 256 := hb b3 (by simp)
      have : b0 = 177 ∧ b1 = 0 ∧ b2 = 136 ∧ b3 = 17 := by
        rw [MAGIC] at hmagic
        omega
      exact hne (by simp [this.1, this.2.1, this.2.2.1, this.2.2.2])
  · intro path k s l e w x r r' pay hr hr'
    rw [be4_MAGIC]
    simp only [List.append_assoc, List.cons_append, List.nil_append]
    rw [fromFileBytes, fromFileBytes, readU32BE_magic, readU32BE_magic]
    dsimp only
    rw [if_neg (by simp), if_neg (by simp)]
    cases hk : ConstructionType.fromByte k with
    | none => rfl
    | some ct =>
      simp only [readU64LE_le8_mod]
      rw [if_neg (by simp [List.length_append, hr]), if_neg (by simp [List.length_append, hr'])]
      rw [List.drop_left' hr, List.drop_left' hr']
  · intro path s l e w x pay
    rw [be4_MAGIC]
    simp only [List.append_assoc, List.cons_append, List.nil_append]
    rw [fromFileBytes, readU32BE_magic]
    dsimp only
    rw [if_neg (by simp)]
    simp only [readU64LE_le8_mod]
    dsimp only [ConstructionType.fromByte]
    rw [if_neg (by simp [List.length_append])]
    rw [List.drop_left' (by simp)]

/-- Witness for C9 at a concrete container and concrete reserved bytes. -/
theorem c9_header_layout_witness :
    ((∀ b ∈ ([0, 0, 0, 0] : List Nat).take 4, b < 256)
        ∧ ([0, 0, 0, 0] : List Nat).take 4 ≠ [177, 0, 136, 17]
        ∧ fromFileBytes "w.blm" [0, 0, 0, 0] = none)
      ∧ ((List.replicate 83 1).length = 83
        ∧ fromFileBytes "w.xxh" (be4 MAGIC ++ [2] ++ le8 3 ++ le8 1 ++ le8 0
              ++ le8 0 ++ le8 1 ++ List.replicate 83 1 ++ [0, 0, 0])
          = fromFileBytes "w.xxh" (be4 MAGIC ++ [2] ++ le8 3 ++ le8 1 ++ le8 0
              ++ le8 0 ++ le8 1 ++ List.replicate 83 0 ++ [0, 0, 0])) :=
  ⟨⟨by decide, by decide,
    c9_header_layout.2.2.1 "w.blm" [0, 0, 0, 0] (by decide) (by decide)⟩,
   ⟨by decide,
    c9_header_layout.2.2.2.1 "w.xxh" 2 3 1 0 0 1 (List.replicate 83 1)
      (List.replicate 83 0) [0, 0, 0] (by decide) (by decide)⟩⟩

/-! ## Pipeline lemmas -/

theorem advanceGo_ge (cs : List Cont) :
    ∀ (fuel cur : Nat), cur ≤ advanceGo cs fuel cur := by
  intro fuel
  induction fuel with
  | zero => intro cur; exact Nat.le_refl _
  | succ n ih =>
    intro cur
    rw [advanceGo]
    split
    · split
      · have := ih (cur + 1)
        omega
      · exact Nat.le_refl _
    · exact Nat.le_refl _

theorem advanceCursor_ge (cs : List Cont) (cur : Nat) : cur ≤ advanceCursor cs cur :=
  advanceGo_ge cs (cs.length - cur) cur

theorem advanceGo_prefixFull (cs : List Cont) :
    ∀ (fuel cur : Nat), prefixFull cs cur → prefixFull cs (advanceGo cs fuel cur) := by
  intro fuel
  induction fuel with
  | zero => intro cur h; exact h
  | succ n ih =>
    intro cur h
    rw [advanceGo]
    split
    · rename_i hlt
      split
      · rename_i hfull
        refine ih (cur + 1) ?_
        intro j c hj hg
        rcases Nat.lt_or_ge j cur with hj' | hj'
        · exact h j c hj' hg
        · have hj2 : j = cur := by omega
          subst hj2
          rw [List.getElem?_eq_getElem hlt] at hg
          cases hg
          exact hfull
      · exact h
    · exact h

theorem advanceCursor_prefixFull (cs : List Cont) (cur : Nat) (h : prefixFull cs cur) :
    prefixFull cs (advanceCursor cs cur) :=
  advanceGo_prefixFull cs (cs.length - cur) cur h

theorem advanceCursor_not_full (cs : List Cont) (cur : Nat) (hlt : cur < cs.length)
    (hnf : contIsFull cs[cur] = false) : advanceCursor cs cur = cur := by
  rw [advanceCursor]
  have hfuel : cs.length - cur = (cs.length - cur - 1) + 1 := by omega
  rw [hfuel, advanceGo]
  simp [hlt, hnf]

theorem scanFrom_length (cw : Bool) (cur : Nat) (line : List Nat) :
    ∀ (cs : List Cont) (idx : Nat) (f w : Bool) (cs' : List Cont),
      scanFrom cw cur line idx cs = some (f, w, cs') → cs'.length = cs.length := by
  intro cs
  induction cs with
  | nil => intro idx f w cs' h; simp [scanFrom] at h; simp [h.2.2]
  | cons c rest ih =>
    intro idx f w cs' h
    rw [scanFrom] at h
    split at h
    · cases hcas : contCheckAndSet c line with
      | none => rw [hcas] at h; exact absurd h (by simp)
      | some p =>
        rw [hcas] at h
        by_cases hf : p.1 = true
        · simp only [hf, if_true] at h
          cases h
          simp
        · simp only [Bool.not_eq_true] at hf
          simp only [hf, Bool.false_eq_true, if_false, Option.map_eq_some'] at h
          obtain ⟨r, hr, hre⟩ := h
          cases hre
          have := ih (idx + 1) r.1 r.2.1 r.2.2 hr
          simp [this]
    · cases hchk : contCheck c line with
      | none => rw [hchk] at h; exact absurd h (by simp)
      | some f0 =>
        rw [hchk] at h
        by_cases hf : f0 = true
        · simp only [hf, if_true] at h
          cases h
          simp
        · simp only [Bool.not_eq_true] at hf
          simp only [hf, Bool.false_eq_true, if_false, Option.map_eq_some'] at h
          obtain ⟨r, hr, hre⟩ := h
          cases hre
          have := ih (idx + 1) r.1 r.2.1 r.2.2 hr
          simp [this]

theorem scanFrom_getElem_ne (cw : Bool) (cur : Nat) (line : List Nat) :
    ∀ (cs : List Cont) (idx : Nat) (f w : Bool) (cs' : List Cont),
      scanFrom cw cur line idx cs = some (f, w, cs') →
      ∀ j, idx + j ≠ cur → cs'[j]? = cs[j]? := by
  intro cs
  induction cs with
  | nil =>
    intro idx f w cs' h j _
    simp [scanFrom] at h
    simp [h.2.2]
  | cons c rest ih =>
    intro idx f w cs' h j hj
    rw [scanFrom] at h
    split at h
    · rename_i hcw
      cases hcas : contCheckAndSet c line with
      | none => rw [hcas] at h; exact absurd h (by simp)
      | some p =>
        rw [hcas] at h
        by_cases hf : p.1 = true
        · simp only [hf, if_true] at h
          cases h
          cases j with
          | zero => exact absurd hcw.2 (by omega)
          | succ n => simp
        · simp only [Bool.not_eq_true] at hf
          simp only [hf, Bool.false_eq_true, if_false, Option.map_eq_some'] at h
          obtain ⟨r, hr, hre⟩ := h
          cases hre
          cases j with
          | zero => exact absurd hcw.2 (by omega)
          | succ n =>
            have := ih (idx + 1) r.1 r.2.1 r.2.2 hr n (by omega)
            simpa using this
    · cases hchk : contCheck c line with
      | none => rw [hchk] at h; exact absurd h (by simp)
      | some f0 =>
        rw [hchk] at h
        by_cases hf : f0 = true
        · simp only [hf, if_true] at h
          cases h
          rfl
        · simp only [Bool.not_eq_true] at hf
          simp only [hf, Bool.false_eq_true, if_false, Option.map_eq_some'] at h
          obtain ⟨r, hr, hre⟩ := h
          cases hre
          cases j with
          | zero => simp
          | succ n =>
            have := ih (idx + 1) r.1 r.2.1 r.2.2 hr n (by omega)
            simpa using this

theorem scanFrom_read_only (cur : Nat) (line : List Nat) :
    ∀ (cs : List Cont) (idx : Nat) (f w : Bool) (cs' : List Cont),
      scanFrom false cur line idx cs = some (f, w, cs') → cs' = cs := by
  intro cs
  induction cs with
  | nil => intro idx f w cs' h; simp [scanFrom] at h; simp [h.2.2]
  | cons c rest ih =>
    intro idx f w cs' h
    rw [scanFrom] at h
    rw [if_neg (by simp)] at h
    cases hchk : contCheck c line with
    | none => rw [hchk] at h; exact absurd h (by simp)
    | some f0 =>
      rw [hchk] at h
      by_cases hf : f0 = true
      · simp only [hf, if_true] at h
        cases h
        rfl
      · simp only [Bool.not_eq_true] at hf
        simp only [hf, Bool.false_eq_true, if_false, Option.map_eq_some'] at h
        obtain ⟨r, hr, hre⟩ := h
        cases hre
        rw [ih (idx + 1) r.1 r.2.1 r.2.2 hr]

theorem processLine_read_mode (p : Flags) (hp : p.writeMode = false)
    (cs : List Cont) (cur : Nat) (line : List Nat)
    (cs' : List Cont) (cur' : Nat) (out : List Nat)
    (h : processLine p cs cur line = some (cs', cur', out)) :
    cs' = cs ∧ cur' = cur := by
  rw [processLine] at h
  simp only [hp, Bool.false_eq_true, if_false, Bool.false_and] at h
  cases hscan : scanFrom false cur line 0 cs with
  | none => rw [hscan] at h; exact absurd h (by simp)
  | some r =>
    obtain ⟨found, written, cs1⟩ := r
    rw [hscan] at h
    simp only [Bool.and_false, Bool.false_and, Bool.false_eq_true, if_false,
      Option.some.injEq, Prod.mk.injEq] at h
    obtain ⟨h1, h2, _⟩ := h
    exact ⟨h1 ▸ scanFrom_read_only cur line cs 0 found written cs1 hscan, h2.symm⟩

theorem processLine_invariant (p : Flags) (cs : List Cont) (cur : Nat) (line : List Nat)
    (cs' : List Cont) (cur' : Nat) (out : List Nat)
    (h : processLine p cs cur line = some (cs', cur', out)) (hpf : prefixFull cs cur) :
    cur ≤ cur' ∧ cur' = advancedCursorOf p (cs, cur) ∧ prefixFull cs' cur' := by
  cases hw : p.writeMode with
  | false =>
    obtain ⟨h1, h2⟩ := processLine_read_mode p hw cs cur line cs' cur' out h
    subst h1; subst h2
    exact ⟨Nat.le_refl _, by simp [advancedCursorOf, hw], hpf⟩
  | true =>
    rw [processLine] at h
    simp only [hw, if_true] at h
    cases hscan : scanFrom (true && decide (advanceCursor cs cur < cs.length))
        (advanceCursor cs cur) line 0 cs with
    | none => rw [hscan] at h; exact absurd h (by simp)
    | some r =>
      obtain ⟨found, written, cs1⟩ := r
      rw [hscan] at h
      have hcs1 : ∀ j, j ≠ advanceCursor cs cur → cs1[j]? = cs[j]? := by
        intro j hj
        exact scanFrom_getElem_ne _ _ line cs 0 found written cs1 hscan j (by omega)
      have hpf1 : prefixFull cs1 (advanceCursor cs cur) := by
        intro j c hj hg
        have := hcs1 j (by omega)
        rw [this] at hg
        exact advanceCursor_prefixFull cs cur hpf j c hj hg
      dsimp only at h
      split at h
      · -- step-3 insertion branch
        cases hget : cs1[advanceCursor cs cur]? with
        | none => rw [hget] at h; exact absurd h (by simp)
        | some c =>
          rw [hget] at h
          dsimp only at h
          cases hset : contSet c line with
          | none => rw [hset] at h; exact absurd h (by simp)
          | some c' =>
            rw [hset] at h
            simp only [Option.some.injEq, Prod.mk.injEq] at h
            obtain ⟨h1, h2, _⟩ := h
            refine ⟨?_, ?_, ?_⟩
            · rw [← h2]; exact advanceCursor_ge cs cur
            · rw [← h2]; simp [advancedCursorOf, hw]
            · rw [← h1, ← h2]
              intro j c0 hj hg
              rw [List.getElem?_set_ne (by omega)] at hg
              exact hpf1 j c0 hj hg
      · simp only [Option.some.injEq, Prod.mk.injEq] at h
        obtain ⟨h1, h2, _⟩ := h
        refine ⟨?_, ?_, ?_⟩
        · rw [← h2]; exact advanceCursor_ge cs cur
        · rw [← h2]; simp [advancedCursorOf, hw]
        · rw [← h1, ← h2]; exact hpf1

theorem lineStates_head (p : Flags) :
    ∀ (lines : List (List Nat)) (cs : List Cont) (cur : Nat) (ts : List (List Cont × Nat)),
      lineStates p lines cs cur = some ts → ts.head? = some (cs, cur) := by
  intro lines
  induction lines with
  | nil => intro cs cur ts h; rw [lineStates] at h; cases h; rfl
  | cons l ls _ =>
    intro cs cur ts h
    rw [lineStates] at h
    split at h
    · cases hpl : processLine p cs cur l with
      | none => rw [hpl] at h; exact absurd h (by simp)
      | some q =>
        rw [hpl] at h
        simp only [Option.map_eq_some'] at h
        obtain ⟨t, _, ht⟩ := h
        rw [← ht]
        rfl
    · simp only [Option.map_eq_some'] at h
      obtain ⟨t, _, ht⟩ := h
      rw [← ht]
      rfl

theorem lineStates_invariant (p : Flags) :
    ∀ (lines : List (List Nat)) (cs : List Cont) (cur : Nat) (ts : List (List Cont × Nat)),
      prefixFull cs cur → lineStates p lines cs cur = some ts →
      List.Chain' (fun s t => s.2 ≤ t.2) ts
        ∧ ∀ s ∈ ts, prefixFull s.1 (advancedCursorOf p s) := by
  intro lines
  induction lines with
  | nil =>
    intro cs cur ts hpf h
    rw [lineStates] at h
    cases h
    refine ⟨by simp, ?_⟩
    intro s hs
    simp only [List.mem_singleton] at hs
    subst hs
    cases hw : p.writeMode with
    | false => simpa [advancedCursorOf, hw] using hpf
    | true =>
      simp only [advancedCursorOf, hw, if_true]
      exact advanceCursor_prefixFull cs cur hpf
  | cons l ls ih =>
    intro cs cur ts hpf h
    rw [lineStates] at h
    split at h
    · cases hpl : processLine p cs cur l with
      | none => rw [hpl] at h; exact absurd h (by simp)
      | some q =>
        rw [hpl] at h
        simp only [Option.map_eq_some'] at h
        obtain ⟨t, ht, hts⟩ := h
        subst hts
        obtain ⟨hle, _, hpf'⟩ :=
          processLine_invariant p cs cur l q.1 q.2.1 q.2.2 (by simpa using hpl) hpf
        obtain ⟨hch, hall⟩ := ih q.1 q.2.1 t hpf' ht
        refine ⟨List.chain'_cons'.mpr ⟨?_, hch⟩, ?_⟩
        · intro y hy
          rw [lineStates_head p ls q.1 q.2.1 t ht] at hy
          simp only [Option.mem_def, Option.some.injEq] at hy
          subst hy
          simpa using hle
        · intro s hs
          rcases List.mem_cons.mp hs with hs | hs
          · subst hs
            cases hw : p.writeMode with
            | false => simpa [advancedCursorOf, hw] using hpf
            | true =>
              simp only [advancedCursorOf, hw, if_true]
              exact advanceCursor_prefixFull cs cur hpf
          · exact hall s hs
    · simp only [Option.map_eq_some'] at h
      obtain ⟨t, ht, hts⟩ := h
      subst hts
      obtain ⟨hch, hall⟩ := ih cs cur t hpf ht
      refine ⟨List.chain'_cons'.mpr ⟨?_, hch⟩, ?_⟩
      · intro y hy
        rw [lineStates_head p ls cs cur t ht] at hy
        simp only [Option.mem_def, Option.some.injEq] at hy
        subst hy
        exact Nat.le_refl _
      · intro s hs
        rcases List.mem_cons.mp hs with hs | hs
        · subst hs
          cases hw : p.writeMode with
          | false => simpa [advancedCursorOf, hw] using hpf
          | true =>
            simp only [advancedCursorOf, hw, if_true]
            exact advanceCursor_prefixFull cs cur hpf
        · exact hall s hs

theorem processLines_read_mode (inv sil : Bool) :
    ∀ (lines : List (List Nat)) (cs : List Cont) (cur : Nat)
      (r : List Cont × Nat × List Nat),
      processLines ⟨false, inv, sil⟩ lines cs cur = some r → r.1 = cs ∧ r.2.1 = cur := by
  intro lines
  induction lines with
  | nil => intro cs cur r h; rw [processLines] at h; cases h; exact ⟨rfl, rfl⟩
  | cons l ls ih =>
    intro cs cur r h
    rw [processLines] at h
    split at h
    · cases hpl : processLine ⟨false, inv, sil⟩ cs cur l with
      | none => rw [hpl] at h; exact absurd h (by simp)
      | some q =>
        rw [hpl] at h
        simp only [Option.map_eq_some'] at h
        obtain ⟨t, ht, hr⟩ := h
        obtain ⟨h1, h2⟩ := processLine_read_mode ⟨false, inv, sil⟩ rfl cs cur l
          q.1 q.2.1 q.2.2 (by simpa using hpl)
        obtain ⟨h3, h4⟩ := ih q.1 q.2.1 t ht
        subst hr
        simp only
        rw [h3, h4, h1, h2]
        exact ⟨rfl, rfl⟩
    · simp only [Option.map_eq_some'] at h
      obtain ⟨t, ht, hr⟩ := h
      obtain ⟨h3, h4⟩ := ih cs cur t ht
      subst hr
      exact ⟨h3, h4⟩

theorem scanFrom_skip_misses (cw : Bool) (cur : Nat) (line : List Nat) :
    ∀ (pre : List Cont) (rest : List Cont) (idx : Nat),
      (∀ k, k < pre.length → ¬(cw = true ∧ idx + k = cur)) →
      (∀ (k : Nat) (c : Cont), pre[k]? = some c → contCheck c line = some false) →
      scanFrom cw cur line idx (pre ++ rest)
        = (scanFrom cw cur line (idx + pre.length) rest).map
            (fun r => (r.1, r.2.1, pre ++ r.2.2)) := by
  intro pre
  induction pre with
  | nil =>
    intro rest idx _ _
    simp only [List.nil_append, List.length_nil, Nat.add_zero]
    cases scanFrom cw cur line idx rest <;> simp
  | cons c pre' ih =>
    intro rest idx hnc hpre
    have hc : contCheck c line = some false := hpre 0 c (by simp)
    have hcur : ¬(cw = true ∧ idx = cur) := by
      have := hnc 0 (by simp)
      simpa using this
    rw [List.cons_append, scanFrom, if_neg hcur, hc]
    simp only [Bool.false_eq_true, if_false]
    rw [ih rest (idx + 1)
      (by
        intro k hk hcontra
        exact hnc (k + 1) (by simp only [List.length_cons]; omega)
          ⟨hcontra.1, by omega⟩)
      (by intro k c0 hg; exact hpre (k + 1) c0 (by simpa using hg))]
    rw [Option.map_map]
    have hidx : idx + 1 + pre'.length = idx + (c :: pre').length := by
      simp only [List.length_cons]
      omega
    rw [hidx]
    rfl

/-! ## Bit-vector slice lemmas (for the Xxh slot logic) -/

theorem bvSet_length (bits : List Bool) (i : Nat) (v : Bool) (bits' : List Bool)
    (h : bvSet bits i v = some bits') : bits'.length = bits.length := by
  rw [bvSet] at h
  split at h
  · cases h; simp
  · exact absurd h (by simp)

theorem bvSet_some (bits : List Bool) (i : Nat) (v : Bool) (h : i < bits.length) :
    bvSet bits i v = some (bits.set i v) := by
  rw [bvSet, if_pos h]

theorem bvSet_getElem_ne (bits : List Bool) (i : Nat) (v : Bool) (bits' : List Bool)
    (h : bvSet bits i v = some bits') (j : Nat) (hj : j ≠ i) : bits'[j]? = bits[j]? := by
  rw [bvSet] at h
  split at h
  · cases h; exact List.getElem?_set_ne (by omega)
  · exact absurd h (by simp)

theorem bvSet_getElem_self (bits : List Bool) (i : Nat) (v : Bool) (bits' : List Bool)
    (h : bvSet bits i v = some bits') : bits'[i]? = some v := by
  rw [bvSet] at h
  split at h
  · rename_i hi
    cases h
    simp [List.getElem?_set_self, hi]
  · exact absurd h (by simp)

theorem setBitVecSlice_length :
    ∀ (count : Nat) (bits : List Bool) (start : Nat) (bits' : List Bool) (k : Nat),
      setBitVecSlice bits start count k = some bits' → bits'.length = bits.length := by
  intro count
  induction count with
  | zero => intro bits start bits' k h; rw [setBitVecSlice] at h; cases h; rfl
  | succ c ih =>
    intro bits start bits' k h
    rw [setBitVecSlice] at h
    cases hset : bvSet bits start (k % 2 = 1) with
    | none => rw [hset] at h; exact absurd h (by simp)
    | some bits1 =>
      rw [hset] at h
      have h1 := bvSet_length bits start _ bits1 hset
      have h2 := ih bits1 (start + 1) bits' (k / 2) h
      omega

theorem setBitVecSlice_some :
    ∀ (count : Nat) (bits : List Bool) (start key : Nat),
      start + count ≤ bits.length → ∃ bits', setBitVecSlice bits start count key = some bits' := by
  intro count
  induction count with
  | zero => intro bits start key _; exact ⟨bits, rfl⟩
  | succ c ih =>
    intro bits start key hle
    rw [setBitVecSlice]
    have hi : start < bits.length := by omega
    rw [bvSet_some bits start _ hi]
    exact ih (bits.set start (key % 2 = 1)) (start + 1) (key / 2) (by simp; omega)

theorem setBitVecSlice_getElem_outside :
    ∀ (count : Nat) (bits : List Bool) (start key : Nat) (bits' : List Bool),
      setBitVecSlice bits start count key = some bits' →
      ∀ q, q < start ∨ start + count ≤ q → bits'[q]? = bits[q]? := by
  intro count
  induction count with
  | zero => intro bits start key bits' h q _; rw [setBitVecSlice] at h; cases h; rfl
  | succ c ih =>
    intro bits start key bits' h q hq
    rw [setBitVecSlice] at h
    cases hset : bvSet bits start (key % 2 = 1) with
    | none => rw [hset] at h; exact absurd h (by simp)
    | some bits1 =>
      rw [hset] at h
      have h1 := ih bits1 (start + 1) (key / 2) bits' h q (by omega)
      rw [h1]
      exact bvSet_getElem_ne bits start _ bits1 hset q (by omega)

theorem getBitVecSlice_congr :
    ∀ (count : Nat) (bits bits2 : List Bool) (start : Nat),
      (∀ q, start ≤ q → q < start + count → bits2[q]? = bits[q]?) →
      getBitVecSlice bits2 start count = getBitVecSlice bits start count := by
  intro count
  induction count with
  | zero => intro bits bits2 start _; rfl
  | succ c ih =>
    intro bits bits2 start hq
    rw [getBitVecSlice, getBitVecSlice]
    rw [show bvGet bits2 start = bvGet bits start from hq start (Nat.le_refl _) (by omega)]
    rw [ih bits bits2 (start + 1) (by intro q h1 h2; exact hq q (by omega) (by omega))]

theorem getBitVecSlice_some :
    ∀ (count : Nat) (bits : List Bool) (start : Nat),
      start + count ≤ bits.length → ∃ r, getBitVecSlice bits start count = some r := by
  intro count
  induction count with
  | zero => intro bits start _; exact ⟨0, rfl⟩
  | succ c ih =>
    intro bits start hle
    rw [getBitVecSlice]
    have hi : start < bits.length := by omega
    rw [show bvGet bits start = some bits[start] from by
      rw [bvGet]; exact List.getElem?_eq_getElem hi]
    obtain ⟨r, hr⟩ := ih bits (start + 1) (by omega)
    exact ⟨r * 2 + if bits[start] then 1 else 0, by rw [hr]; rfl⟩

theorem getBitVecSlice_setBitVecSlice :
    ∀ (count : Nat) (bits : List Bool) (start key : Nat) (bits' : List Bool),
      setBitVecSlice bits start count key = some bits' →
      getBitVecSlice bits' start count = some (key % 2 ^ count) := by
  intro count
  induction count with
  | zero =>
    intro bits start key bits' h
    rw [setBitVecSlice] at h
    cases h
    simp only [getBitVecSlice, pow_zero, Nat.mod_one]
  | succ c ih =>
    intro bits start key bits' h
    rw [setBitVecSlice] at h
    cases hset : bvSet bits start (key % 2 = 1) with
    | none => rw [hset] at h; exact absurd h (by simp)
    | some bits1 =>
      rw [hset] at h
      have hstart : bits'[start]? = some (decide (key % 2 = 1)) := by
        rw [setBitVecSlice_getElem_outside c bits1 (start + 1) (key / 2) bits' h start
          (by omega)]
        exact bvSet_getElem_self bits start _ bits1 hset
      rw [getBitVecSlice]
      rw [show bvGet bits' start = some (decide (key % 2 = 1)) from hstart]
      rw [ih bits1 (start + 1) (key / 2) bits' h]
      simp only [Option.map_some, Option.some.injEq]
      rw [pow_succ, mul_comm, Nat.mod_mul]
      generalize key / 2 % 2 ^ c = t
      rcases Nat.mod_two_eq_zero_or_one key with h0 | h0 <;> simp [h0] <;> omega

/-! ## Slot-level lemmas for the Xxh filter -/

theorem writeKey_fields (st : XxhState) (slotIdx key : Nat) (st' : XxhState)
    (h : writeKey st slotIdx key = some st') :
    st'.details = st.details ∧ st'.numWrites = st.numWrites + 1
      ∧ st'.maxWrites = st.maxWrites ∧ st'.keyBits = st.keyBits
      ∧ st'.slotBits = st.slotBits ∧ st'.numSlots = st.numSlots
      ∧ st'.numTries = st.numTries ∧ st'.bits.length = st.bits.length := by
  rw [writeKey] at h
  cases hset : bvSet st.bits (slotIdx % st.numSlots * st.slotBits) true with
  | none => rw [hset] at h; exact absurd h (by simp)
  | some bits1 =>
    rw [hset] at h
    dsimp only at h
    cases hslice : setBitVecSlice bits1 (slotIdx % st.numSlots * st.slotBits + 1)
        st.keyBits key with
    | none => rw [hslice] at h; exact absurd h (by simp)
    | some bits2 =>
      rw [hslice] at h
      cases h
      have h1 := bvSet_length st.bits _ true bits1 hset
      have h2 := setBitVecSlice_length st.keyBits bits1 _ bits2 key hslice
      exact ⟨rfl, rfl, rfl, rfl, rfl, rfl, rfl, by simp; omega⟩

theorem writeKey_some (st : XxhState) (slotIdx key : Nat)
    (hN : 1 ≤ st.numSlots) (hsb : st.keyBits + 1 ≤ st.slotBits)
    (hlen : st.numSlots * st.slotBits ≤ st.bits.length) :
    ∃ st', writeKey st slotIdx key = some st' := by
  have hs : slotIdx % st.numSlots < st.numSlots := Nat.mod_lt _ (by omega)
  have hbound : (slotIdx % st.numSlots) * st.slotBits + st.slotBits ≤ st.bits.length := by
    have : (slotIdx % st.numSlots + 1) * st.slotBits ≤ st.numSlots * st.slotBits :=
      Nat.mul_le_mul_right _ (by omega)
    calc (slotIdx % st.numSlots) * st.slotBits + st.slotBits
        = (slotIdx % st.numSlots + 1) * st.slotBits := by ring
      _ ≤ st.numSlots * st.slotBits := this
      _ ≤ st.bits.length := hlen
  rw [writeKey]
  have hocc : (slotIdx % st.numSlots) * st.slotBits < st.bits.length := by omega
  rw [bvSet_some st.bits _ true hocc]
  obtain ⟨bits2, hb2⟩ := setBitVecSlice_some st.keyBits
    (st.bits.set ((slotIdx % st.numSlots) * st.slotBits) true)
    ((slotIdx % st.numSlots) * st.slotBits + 1) key (by simp; omega)
  dsimp only
  rw [hb2]
  exact ⟨_, rfl⟩

theorem slot_disjoint (r s kB sB q : Nat) (hne : r ≠ s) (hsb : kB + 1 ≤ sB)
    (hq1 : r * sB ≤ q) (hq2 : q ≤ r * sB + kB) :
    q < s * sB ∨ s * sB + kB + 1 ≤ q := by
  rcases Nat.lt_or_ge r s with h | h
  · left
    have h1 : (r + 1) * sB ≤ s * sB := Nat.mul_le_mul_right _ (by omega)
    calc q ≤ r * sB + kB := hq2
      _ < (r + 1) * sB := by rw [Nat.add_mul]; omega
      _ ≤ s * sB := h1
  · right
    have hlt : s < r := by omega
    have h1 : (s + 1) * sB ≤ r * sB := Nat.mul_le_mul_right _ (by omega)
    have h2 : s * sB + kB + 1 ≤ (s + 1) * sB := by rw [Nat.add_mul]; omega
    omega

theorem writeKey_getElem_outside (st : XxhState) (slotIdx key : Nat) (st' : XxhState)
    (h : writeKey st slotIdx key = some st') (q : Nat)
    (hq : q < (slotIdx % st.numSlots) * st.slotBits
          ∨ (slotIdx % st.numSlots) * st.slotBits + st.keyBits + 1 ≤ q) :
    st'.bits[q]? = st.bits[q]? := by
  rw [writeKey] at h
  cases hset : bvSet st.bits (slotIdx % st.numSlots * st.slotBits) true with
  | none => rw [hset] at h; exact absurd h (by simp)
  | some bits1 =>
    rw [hset] at h
    dsimp only at h
    cases hslice : setBitVecSlice bits1 (slotIdx % st.numSlots * st.slotBits + 1)
        st.keyBits key with
    | none => rw [hslice] at h; exact absurd h (by simp)
    | some bits2 =>
      rw [hslice] at h
      cases h
      simp only
      rw [setBitVecSlice_getElem_outside st.keyBits bits1 _ key bits2 hslice q (by omega)]
      exact bvSet_getElem_ne st.bits _ true bits1 hset q (by omega)

theorem writeKey_frame (st : XxhState) (slotIdx key : Nat) (st' : XxhState)
    (h : writeKey st slotIdx key = some st') (hsb : st.keyBits + 1 ≤ st.slotBits)
    (slotIdx2 : Nat) (hne : slotIdx2 % st.numSlots ≠ slotIdx % st.numSlots) :
    getSlotInUse st' slotIdx2 = getSlotInUse st slotIdx2
      ∧ readKey st' slotIdx2 = readKey st slotIdx2 := by
  obtain ⟨_, _, _, hkB, hsB, hN, _, _⟩ := writeKey_fields st slotIdx key st' h
  constructor
  · rw [getSlotInUse, getSlotInUse, hN, hsB, bvGet, bvGet]
    exact writeKey_getElem_outside st slotIdx key st' h _
      (slot_disjoint (slotIdx2 % st.numSlots) (slotIdx % st.numSlots)
        st.keyBits st.slotBits _ hne hsb (Nat.le_refl _) (by omega))
  · rw [readKey, readKey, hN, hsB, hkB]
    refine getBitVecSlice_congr st.keyBits st.bits st'.bits _ ?_
    intro q h1 h2
    exact writeKey_getElem_outside st slotIdx key st' h q
      (slot_disjoint (slotIdx2 % st.numSlots) (slotIdx % st.numSlots)
        st.keyBits st.slotBits q hne hsb (by omega) (by omega))

theorem writeKey_read_self (st : XxhState) (slotIdx key : Nat) (st' : XxhState)
    (h : writeKey st slotIdx key = some st') (hkey : key < 2 ^ st.keyBits)
    (slotIdx2 : Nat) (heq : slotIdx2 % st.numSlots = slotIdx % st.numSlots) :
    getSlotInUse st' slotIdx2 = some true ∧ readKey st' slotIdx2 = some key := by
  obtain ⟨_, _, _, hkB, hsB, hN, _, _⟩ := writeKey_fields st slotIdx key st' h
  rw [writeKey] at h
  cases hset : bvSet st.bits (slotIdx % st.numSlots * st.slotBits) true with
  | none => rw [hset] at h; exact absurd h (by simp)
  | some bits1 =>
    rw [hset] at h
    dsimp only at h
    cases hslice : setBitVecSlice bits1 (slotIdx % st.numSlots * st.slotBits + 1)
        st.keyBits key with
    | none => rw [hslice] at h; exact absurd h (by simp)
    | some bits2 =>
      rw [hslice] at h
      cases h
      constructor
      · rw [getSlotInUse, bvGet]
        simp only [hN, hsB, heq]
        rw [setBitVecSlice_getElem_outside st.keyBits bits1 _ key bits2 hslice _ (by omega)]
        exact bvSet_getElem_self st.bits _ true bits1 hset
      · rw [readKey]
        simp only [hN, hsB, hkB, heq]
        rw [getBitVecSlice_setBitVecSlice st.keyBits bits1 _ key bits2 hslice]
        rw [Nat.mod_eq_of_lt hkey]

theorem insertKeyGo_cases (st : XxhState) (slot keyVal : Nat) :
    ∀ (l : List Nat) (r : Bool) (st1 : XxhState),
      insertKeyGo st slot keyVal l = some (r, st1) →
      (st1 = st ∧ (r = false →
          ∀ i ∈ l, getSlotInUse st (slot + i) = some true
            ∧ readKey st (slot + i) ≠ some keyVal))
        ∨ (r = false ∧ ∃ j ∈ l, getSlotInUse st (slot + j) = some false
            ∧ writeKey st (slot + j) keyVal = some st1) := by
  intro l
  induction l with
  | nil =>
    intro r st1 h
    rw [insertKeyGo] at h
    simp only [Option.some.injEq, Prod.mk.injEq] at h
    left
    exact ⟨h.2.symm, fun _ i hi => absurd hi (List.not_mem_nil i)⟩
  | cons i rest ih =>
    intro r st1 h
    rw [insertKeyGo] at h
    cases hocc : getSlotInUse st (slot + i) with
    | none => rw [hocc] at h; exact absurd h (by simp)
    | some b =>
      rw [hocc] at h
      cases b with
      | true =>
        dsimp only at h
        cases hread : readKey st (slot + i) with
        | none => rw [hread] at h; exact absurd h (by simp)
        | some k =>
          rw [hread] at h
          dsimp only at h
          by_cases hk : k = keyVal
          · rw [if_pos hk] at h
            simp only [Option.some.injEq, Prod.mk.injEq] at h
            left
            refine ⟨h.2.symm, fun hr => absurd (hr ▸ h.1.symm) (by simp)⟩
          · rw [if_neg hk] at h
            rcases ih r st1 h with ⟨he, hall⟩ | ⟨hr, j, hj, hjo, hjw⟩
            · left
              refine ⟨he, fun hr j hj => ?_⟩
              rcases List.mem_cons.mp hj with hj | hj
              · subst hj
                exact ⟨hocc, by rw [hread]; simp [hk]⟩
              · exact hall hr j hj
            · right
              exact ⟨hr, j, List.mem_cons_of_mem i hj, hjo, hjw⟩
      | false =>
        dsimp only at h
        cases hw : writeKey st (slot + i) keyVal with
        | none => rw [hw] at h; exact absurd h (by simp)
        | some st2 =>
          rw [hw] at h
          simp only [Option.map_some', Option.some.injEq, Prod.mk.injEq] at h
          right
          exact ⟨h.1.symm, i, List.mem_cons_self i rest, hocc, h.2 ▸ hw⟩

theorem insertKeyGo_again (st : XxhState) (slot keyVal : Nat)
    (hsb : st.keyBits + 1 ≤ st.slotBits) (hkey : keyVal < 2 ^ st.keyBits) :
    ∀ (l : List Nat) (r : Bool) (st1 : XxhState),
      insertKeyGo st slot keyVal l = some (r, st1) →
      (r = true ∨ st.numWrites < st1.numWrites) →
      insertKeyGo st1 slot keyVal l = some (true, st1) := by
  intro l
  induction l with
  | nil =>
    intro r st1 h hcond
    rw [insertKeyGo] at h
    simp only [Option.some.injEq, Prod.mk.injEq] at h
    obtain ⟨hr, he⟩ := h
    subst he
    rcases hcond with hc | hc
    · exact absurd (hr ▸ hc) (by simp)
    · omega
  | cons i rest ih =>
    intro r st1 h hcond
    rw [insertKeyGo] at h
    cases hocc : getSlotInUse st (slot + i) with
    | none => rw [hocc] at h; exact absurd h (by simp)
    | some b =>
      rw [hocc] at h
      cases b with
      | true =>
        dsimp only at h
        cases hread : readKey st (slot + i) with
        | none => rw [hread] at h; exact absurd h (by simp)
        | some k =>
          rw [hread] at h
          dsimp only at h
          by_cases hk : k = keyVal
          · rw [if_pos hk] at h
            simp only [Option.some.injEq, Prod.mk.injEq] at h
            obtain ⟨hr, he⟩ := h
            subst he
            rw [insertKeyGo, hocc]
            dsimp only
            rw [hread]
            dsimp only
            rw [if_pos hk]
          · rw [if_neg hk] at h
            rcases insertKeyGo_cases st slot keyVal rest r st1 h
              with ⟨he, _⟩ | ⟨hr, j, _, hjo, hjw⟩
            · subst he
              have hr' : r = true := by
                rcases hcond with hc | hc
                · exact hc
                · omega
              have hrec := ih r st1 h hcond
              rw [insertKeyGo, hocc]
              dsimp only
              rw [hread]
              dsimp only
              rw [if_neg hk]
              exact hrec
            · have hres : (slot + i) % st.numSlots ≠ (slot + j) % st.numSlots := by
                intro hcontra
                simp only [getSlotInUse] at hocc hjo
                rw [hcontra] at hocc
                rw [hocc] at hjo
                exact absurd hjo (by simp)
              obtain ⟨hocc', hread'⟩ := writeKey_frame st (slot + j) keyVal st1 hjw hsb
                (slot + i) hres
              have hnw : st.numWrites < st1.numWrites := by
                have := (writeKey_fields st (slot + j) keyVal st1 hjw).2.1
                omega
              have hrec := ih r st1 h (Or.inr hnw)
              rw [insertKeyGo]
              rw [hocc', hocc]
              dsimp only
              rw [hread', hread]
              dsimp only
              rw [if_neg hk]
              exact hrec
      | false =>
        dsimp only at h
        cases hw : writeKey st (slot + i) keyVal with
        | none => rw [hw] at h; exact absurd h (by simp)
        | some st2 =>
          rw [hw] at h
          simp only [Option.map_some', Option.some.injEq, Prod.mk.injEq] at h
          obtain ⟨hr, he⟩ := h
          subst he
          obtain ⟨hocc', hread'⟩ := writeKey_read_self st (slot + i) keyVal st2 hw hkey
            (slot + i) rfl
          rw [insertKeyGo, hocc']
          dsimp only
          rw [hread']
          dsimp only
          rw [if_pos rfl]

theorem calcSlotIndex_some (numSlots hash : Nat) (hN : 1 ≤ numSlots) :
    calcSlotIndex numSlots hash
      = some (fToU64 (remap (natToF 53 hash) fZero (natToF 53 (2 ^ 64 - 1))
                fZero (natToF 53 (numSlots - 1))) % numSlots) := by
  rw [calcSlotIndex, if_neg (by omega)]

theorem xxhCheckAndSet_again (st : XxhState) (x : List Nat) (f1 : Bool) (st1 : XxhState)
    (hWF : XxhWF st) (h : xxhCheckAndSet st x = some (f1, st1))
    (hcond : f1 = true ∨ st1 ≠ st) :
    xxhCheckAndSet st1 x = some (true, st1) := by
  obtain ⟨hN, hsb, hlen⟩ := hWF
  rw [xxhCheckAndSet, calcSlotIndex_some _ _ hN] at h
  dsimp only at h
  rw [insertKey] at h
  have hkey : getHashKeyValue st.keyBits (xxh3 x) < 2 ^ st.keyBits :=
    Nat.mod_lt _ (Nat.pos_pow_of_pos _ (by omega))
  have hfields : st1.numSlots = st.numSlots ∧ st1.numTries = st.numTries
      ∧ st1.keyBits = st.keyBits := by
    rcases insertKeyGo_cases st _ _ _ f1 st1 h with ⟨he, _⟩ | ⟨_, j, _, _, hjw⟩
    · subst he; exact ⟨rfl, rfl, rfl⟩
    · obtain ⟨_, _, _, h4, _, h6, h7, _⟩ := writeKey_fields st _ _ st1 hjw
      exact ⟨h6, h7, h4⟩
  have hcond' : f1 = true ∨ st.numWrites < st1.numWrites := by
    rcases hcond with hc | hc
    · exact Or.inl hc
    · rcases insertKeyGo_cases st _ _ _ f1 st1 h with ⟨he, _⟩ | ⟨_, j, _, _, hjw⟩
      · exact absurd he hc
      · have := (writeKey_fields st _ _ st1 hjw).2.1
        exact Or.inr (by omega)
  have hB := insertKeyGo_again st _ _ hsb hkey (List.range st.numTries) f1 st1 h hcond'
  rw [xxhCheckAndSet, hfields.1, calcSlotIndex_some _ _ hN]
  dsimp only
  rw [insertKey, hfields.2.1, hfields.2.2]
  exact hB

/-! ## Bloom filter lemmas (spec-modelled crate behaviour) -/

theorem bloomPosition_lt (m h1 h2 i : Nat) (hm : 1 ≤ m) : bloomPosition m h1 h2 i < m :=
  Nat.mod_lt _ (by omega)

theorem bloomSetGo_length (m h1 h2 : Nat) :
    ∀ (c : Nat) (bits bs : List Bool), bloomSetGo bits m h1 h2 c = some bs →
      bs.length = bits.length := by
  intro c
  induction c with
  | zero => intro bits bs h; rw [bloomSetGo] at h; cases h; rfl
  | succ n ih =>
    intro bits bs h
    rw [bloomSetGo] at h
    cases hgo : bloomSetGo bits m h1 h2 n with
    | none => rw [hgo] at h; exact absurd h (by simp)
    | some bs0 =>
      rw [hgo] at h
      have := bvSet_length bs0 _ true bs h
      have := ih bits bs0 hgo
      omega

theorem bloomSetGo_some (m h1 h2 : Nat) (hm : 1 ≤ m) :
    ∀ (c : Nat) (bits : List Bool), m ≤ bits.length →
      ∃ bs, bloomSetGo bits m h1 h2 c = some bs := by
  intro c
  induction c with
  | zero => intro bits _; exact ⟨bits, rfl⟩
  | succ n ih =>
    intro bits hlen
    obtain ⟨bs0, hgo⟩ := ih bits hlen
    rw [bloomSetGo, hgo]
    dsimp only
    have hlen0 : bs0.length = bits.length := bloomSetGo_length m h1 h2 n bits bs0 hgo
    have hpos : bloomPosition m h1 h2 n < bs0.length := by
      have := bloomPosition_lt m h1 h2 n hm
      omega
    rw [bvSet_some bs0 _ true hpos]
    exact ⟨_, rfl⟩

theorem bloomSetGo_sets (m h1 h2 : Nat) :
    ∀ (c : Nat) (bits bs : List Bool), bloomSetGo bits m h1 h2 c = some bs →
      ∀ i, i < c → bs[bloomPosition m h1 h2 i]? = some true := by
  intro c
  induction c with
  | zero => intro bits bs h i hi; omega
  | succ n ih =>
    intro bits bs h i hi
    rw [bloomSetGo] at h
    cases hgo : bloomSetGo bits m h1 h2 n with
    | none => rw [hgo] at h; exact absurd h (by simp)
    | some bs0 =>
      rw [hgo] at h
      by_cases hip : bloomPosition m h1 h2 i = bloomPosition m h1 h2 n
      · rw [hip]
        exact bvSet_getElem_self bs0 _ true bs h
      · rw [bvSet_getElem_ne bs0 _ true bs h _ hip]
        have hin : i < n := by
          rcases Nat.lt_or_ge i n with h' | h'
          · exact h'
          · exact absurd (by omega : i = n) (fun he => hip (by rw [he]))
        exact ih bits bs0 hgo i hin

theorem bloomCheckGo_some (m h1 h2 : Nat) (hm : 1 ≤ m) :
    ∀ (c : Nat) (bits : List Bool), m ≤ bits.length →
      ∃ b, bloomCheckGo bits m h1 h2 c = some b := by
  intro c
  induction c with
  | zero => intro bits _; exact ⟨true, rfl⟩
  | succ n ih =>
    intro bits hlen
    obtain ⟨b, hgo⟩ := ih bits hlen
    rw [bloomCheckGo]
    have hpos : bloomPosition m h1 h2 n < bits.length := by
      have := bloomPosition_lt m h1 h2 n hm
      omega
    rw [show bvGet bits (bloomPosition m h1 h2 n) = some bits[bloomPosition m h1 h2 n] from by
      rw [bvGet]; exact List.getElem?_eq_getElem hpos]
    rw [hgo]
    exact ⟨_, rfl⟩

theorem bloomCheckGo_all_true (m h1 h2 : Nat) :
    ∀ (c : Nat) (bits : List Bool),
      (∀ i, i < c → bits[bloomPosition m h1 h2 i]? = some true) →
      bloomCheckGo bits m h1 h2 c = some true := by
  intro c
  induction c with
  | zero => intro bits _; rfl
  | succ n ih =>
    intro bits hall
    rw [bloomCheckGo]
    rw [show bvGet bits (bloomPosition m h1 h2 n) = some true from hall n (by omega)]
    rw [ih bits (fun i hi => hall i (by omega))]
    rfl

theorem bloomStCheckAndSet_again (st : BloomState) (x : List Nat) (f1 : Bool)
    (st1 : BloomState) (hWF : BloomWF st.filter)
    (h : bloomStCheckAndSet st x = some (f1, st1)) :
    ∃ st2, bloomStCheckAndSet st1 x = some (true, st2) := by
  obtain ⟨hm, hlen⟩ := hWF
  rw [bloomStCheckAndSet] at h
  cases hcas : bloomFilterCheckAndSet st.filter x with
  | none => rw [hcas] at h; exact absurd h (by simp)
  | some p =>
    rw [hcas] at h
    simp only [Option.map_some', Option.some.injEq] at h
    rw [bloomFilterCheckAndSet] at hcas
    cases hchk : bloomCheck st.filter x with
    | none => rw [hchk] at hcas; exact absurd hcas (by simp)
    | some had =>
      rw [hchk] at hcas
      dsimp only at hcas
      cases hset : bloomSetBits st.filter x with
      | none => rw [hset] at hcas; exact absurd hcas (by simp)
      | some F1 =>
        rw [hset] at hcas
        dsimp only at hcas
        simp only [Option.some.injEq, Prod.mk.injEq] at hcas
        rw [bloomSetBits, if_neg (by omega)] at hset
        simp only [Option.map_eq_some'] at hset
        obtain ⟨bs, hgo, hF1⟩ := hset
        have hp2 : p.2 = F1 := by rw [← hcas]
        have hfil : st1.filter = F1 := by
          have hsnd := congrArg Prod.snd h
          dsimp only at hsnd
          rw [← hsnd]
          simpa using hp2
        have hblen : bs.length = st.filter.bits.length :=
          bloomSetGo_length _ _ _ _ _ bs hgo
        have hF1m : F1.m = st.filter.m := by rw [← hF1]
        have hF1k : F1.k = st.filter.k := by rw [← hF1]
        have hF1keys : F1.key00 = st.filter.key00 ∧ F1.key01 = st.filter.key01
            ∧ F1.key10 = st.filter.key10 ∧ F1.key11 = st.filter.key11 := by
          rw [← hF1]; exact ⟨rfl, rfl, rfl, rfl⟩
        have hF1bits : F1.bits = bs := by rw [← hF1]
        have hhashes : bloomHashes F1 x = bloomHashes st.filter x := by
          rw [bloomHashes, bloomHashes, hF1keys.1, hF1keys.2.1, hF1keys.2.2.1,
            hF1keys.2.2.2]
        have hchk1 : bloomCheck F1 x = some true := by
          rw [bloomCheck, if_neg (by omega)]
          dsimp only
          rw [hhashes, hF1m, hF1k, hF1bits]
          exact bloomCheckGo_all_true _ _ _ _ bs (bloomSetGo_sets _ _ _ _ _ bs hgo)
        obtain ⟨bs2, hgo2⟩ := bloomSetGo_some st.filter.m (bloomHashes st.filter x).1
          (bloomHashes st.filter x).2 (by omega) st.filter.k bs (by omega)
        refine ⟨{ st1 with
                  filter := { F1 with bits := bs2 },
                  numWrites := st1.numWrites }, ?_⟩
        rw [bloomStCheckAndSet, hfil, bloomFilterCheckAndSet, hchk1]
        dsimp only
        rw [bloomSetBits, if_neg (by rw [hF1m]; omega)]
        dsimp only
        rw [hhashes, hF1m, hF1k, hF1bits, hgo2]
        rfl

/-! ## Claim C3 -/

/-- Counterexample to claim C3 as stated: for the Xxh filter, two
successive `check_and_set` calls on the same value do NOT always make the
second call return true.  Concretely, a size-3 container has exactly one
slot (`24 / 21 = 1`); after inserting the line "b" the slot holds b's
fingerprint, and `check_and_set` of "a" probes that same slot four times,
finds a non-matching fingerprint each time, and fails open: it returns
false without inserting, so the state is unchanged and the second call
returns false again. -/
theorem c3_counterexample_fail_open_twice :
    xxhCheckAndSet (xxhAfter cdXxhDemo [98]) [97]
        = some (false, xxhAfter cdXxhDemo [98])
      ∧ (xxhCheckAndSet (xxhAfter cdXxhDemo [98]) [97]).bind
          (fun r => (xxhCheckAndSet r.2 [97]).map Prod.fst) = some false := by
  decide

/-- Claim C3, amended: for the Bloom filter the claim holds as stated (the
second `check_and_set` of the same value returns true); for the Xxh filter
it holds unless the first call failed open, i.e. returned false while
leaving the state unchanged because all `num_tries` probed slots were
occupied by non-matching fingerprints. -/
theorem c3_amended_second_check_and_set :
    (∀ (st : BloomState) (x : List Nat) (f1 : Bool) (st1 : BloomState),
        BloomWF st.filter → bloomStCheckAndSet st x = some (f1, st1) →
        ∃ st2, bloomStCheckAndSet st1 x = some (true, st2))
      ∧ (∀ (st : XxhState) (x : List Nat) (f1 : Bool) (st1 : XxhState),
          XxhWF st → xxhCheckAndSet st x = some (f1, st1) →
          (f1 = true ∨ st1 ≠ st) →
          xxhCheckAndSet st1 x = some (true, st1)) :=
  ⟨bloomStCheckAndSet_again, xxhCheckAndSet_again⟩

/-- Witness for the amended C3: a fresh insertion (not fail-open) followed
by a successful second `check_and_set`. -/
theorem c3_amended_second_check_and_set_witness :
    XxhWF (xxhNew cdXxhDemo)
      ∧ xxhCheckAndSet (xxhNew cdXxhDemo) [98] = some (false, xxhAfter cdXxhDemo [98])
      ∧ xxhAfter cdXxhDemo [98] ≠ xxhNew cdXxhDemo
      ∧ xxhCheckAndSet (xxhAfter cdXxhDemo [98]) [98]
          = some (true, xxhAfter cdXxhDemo [98]) :=
  ⟨⟨by decide, by decide, by decide⟩, by decide, by decide,
   c3_amended_second_check_and_set.2 (xxhNew cdXxhDemo) [98] false
     (xxhAfter cdXxhDemo [98]) ⟨by decide, by decide, by decide⟩ (by decide)
     (Or.inr (by decide))⟩

/-! ## Totality of the container operations on well-formed states -/

theorem xxhWF_index_bound (st : XxhState) (hWF : XxhWF st) (s : Nat) :
    (s % st.numSlots) * st.slotBits + st.slotBits ≤ st.bits.length := by
  obtain ⟨hN, _, hlen⟩ := hWF
  have hs : s % st.numSlots < st.numSlots := Nat.mod_lt _ (by omega)
  have : (s % st.numSlots + 1) * st.slotBits ≤ st.numSlots * st.slotBits :=
    Nat.mul_le_mul_right _ (by omega)
  calc (s % st.numSlots) * st.slotBits + st.slotBits
      = (s % st.numSlots + 1) * st.slotBits := by ring
    _ ≤ st.numSlots * st.slotBits := this
    _ ≤ st.bits.length := hlen

theorem getSlotInUse_some (st : XxhState) (hWF : XxhWF st) (s : Nat) :
    ∃ b, getSlotInUse st s = some b := by
  have hb := xxhWF_index_bound st hWF s
  have hsb := hWF.2.1
  have hi : (s % st.numSlots) * st.slotBits < st.bits.length := by omega
  rw [getSlotInUse, bvGet]
  exact ⟨_, List.getElem?_eq_getElem hi⟩

theorem readKey_some (st : XxhState) (hWF : XxhWF st) (s : Nat) :
    ∃ k, readKey st s = some k := by
  have hb := xxhWF_index_bound st hWF s
  have hsb := hWF.2.1
  rw [readKey]
  exact getBitVecSlice_some st.keyBits st.bits _ (by omega)

theorem writeKey_WF (st : XxhState) (slotIdx key : Nat) (st' : XxhState)
    (h : writeKey st slotIdx key = some st') (hWF : XxhWF st) : XxhWF st' := by
  obtain ⟨_, _, _, h4, h5, h6, _, h8⟩ := writeKey_fields st slotIdx key st' h
  obtain ⟨w1, w2, w3⟩ := hWF
  exact ⟨by omega, by omega, by rw [h5, h6, h8]; exact w3⟩

theorem insertKeyGo_some (slot keyVal : Nat) :
    ∀ (l : List Nat) (st : XxhState), XxhWF st →
      ∃ r st', insertKeyGo st slot keyVal l = some (r, st') ∧ XxhWF st' := by
  intro l
  induction l with
  | nil => intro st hWF; exact ⟨false, st, rfl, hWF⟩
  | cons i rest ih =>
    intro st hWF
    rw [insertKeyGo]
    obtain ⟨b, hocc⟩ := getSlotInUse_some st hWF (slot + i)
    rw [hocc]
    cases b with
    | true =>
      dsimp only
      obtain ⟨k, hread⟩ := readKey_some st hWF (slot + i)
      rw [hread]
      dsimp only
      by_cases hk : k = keyVal
      · rw [if_pos hk]
        exact ⟨true, st, rfl, hWF⟩
      · rw [if_neg hk]
        exact ih st hWF
    | false =>
      dsimp only
      obtain ⟨st', hw⟩ := writeKey_some st (slot + i) keyVal hWF.1 hWF.2.1 hWF.2.2
      rw [hw]
      exact ⟨false, st', rfl, writeKey_WF st _ _ st' hw hWF⟩

theorem findKeyGo_some (slot keyVal : Nat) :
    ∀ (l : List Nat) (st : XxhState), XxhWF st →
      ∃ b, findKeyGo st slot keyVal l = some b := by
  intro l
  induction l with
  | nil => intro st _; exact ⟨true, rfl⟩
  | cons i rest ih =>
    intro st hWF
    rw [findKeyGo]
    obtain ⟨b, hocc⟩ := getSlotInUse_some st hWF (slot + i)
    rw [hocc]
    cases b with
    | false => exact ⟨false, rfl⟩
    | true =>
      dsimp only
      obtain ⟨k, hread⟩ := readKey_some st hWF (slot + i)
      rw [hread]
      dsimp only
      by_cases hk : k = keyVal
      · rw [if_pos hk]
        exact ⟨true, rfl⟩
      · rw [if_neg hk]
        exact ih st hWF

theorem xxhCheck_some (st : XxhState) (v : List Nat) (hWF : XxhWF st) :
    ∃ b, xxhCheck st v = some b := by
  rw [xxhCheck, calcSlotIndex_some _ _ hWF.1]
  exact findKeyGo_some _ _ (List.range st.numTries) st hWF

theorem xxhCheckAndSet_some (st : XxhState) (v : List Nat) (hWF : XxhWF st) :
    ∃ f st', xxhCheckAndSet st v = some (f, st') ∧ XxhWF st' := by
  rw [xxhCheckAndSet, calcSlotIndex_some _ _ hWF.1]
  dsimp only
  rw [insertKey]
  exact insertKeyGo_some _ _ (List.range st.numTries) st hWF

theorem xxhSet_some (st : XxhState) (v : List Nat) (hWF : XxhWF st) :
    ∃ st', xxhSet st v = some st' ∧ XxhWF st' := by
  rw [xxhSet, calcSlotIndex_some _ _ hWF.1]
  dsimp only
  rw [insertKey]
  obtain ⟨r, st', hik, hWF'⟩ := insertKeyGo_some _ _ (List.range st.numTries) st hWF
  rw [hik]
  refine ⟨_, rfl, ?_⟩
  obtain ⟨w1, w2, w3⟩ := hWF'
  exact ⟨w1, w2, w3⟩

theorem xxhNew_WF (d : ContainerDetails) (hsize : 3 ≤ d.cd.size)
    (hbound : d.cd.size < 2 ^ 61) : XxhWF (xxhNew d) := by
  have h8 : d.cd.size * 8 % 2 ^ 64 = d.cd.size * 8 :=
    Nat.mod_eq_of_lt (by omega)
  refine ⟨?_, by rw [xxhNew], ?_⟩
  · rw [xxhNew]
    simp only [h8]
    have h24 : 21 ≤ d.cd.size * 8 := by omega
    omega
  · rw [xxhNew]
    simp only [List.length_replicate]
    exact Nat.div_mul_le_self _ _

theorem bloomStCheck_some (st : BloomState) (v : List Nat) (hWF : BloomWF st.filter) :
    ∃ b, bloomStCheck st v = some b := by
  rw [bloomStCheck, bloomCheck, if_neg (by have := hWF.1; omega)]
  exact bloomCheckGo_some _ _ _ hWF.1 st.filter.k st.filter.bits hWF.2

theorem bloomSetBits_some (f : BloomFilter) (v : List Nat) (hWF : BloomWF f) :
    ∃ f', bloomSetBits f v = some f' ∧ BloomWF f' := by
  rw [bloomSetBits, if_neg (by have := hWF.1; omega)]
  obtain ⟨bs, hgo⟩ := bloomSetGo_some f.m _ _ hWF.1 f.k f.bits hWF.2
  dsimp only
  rw [hgo]
  refine ⟨_, rfl, hWF.1, ?_⟩
  have := bloomSetGo_length f.m _ _ f.k f.bits bs hgo
  simp only
  rw [this]
  exact hWF.2

theorem bloomSet_some (st : BloomState) (v : List Nat) (hWF : BloomWF st.filter) :
    ∃ st', bloomSet st v = some st' ∧ BloomWF st'.filter := by
  rw [bloomSet]
  obtain ⟨f', hf, hWF'⟩ := bloomSetBits_some st.filter v hWF
  rw [hf]
  exact ⟨_, rfl, hWF'⟩

theorem bloomStCheckAndSet_some (st : BloomState) (v : List Nat) (hWF : BloomWF st.filter) :
    ∃ f st', bloomStCheckAndSet st v = some (f, st') ∧ BloomWF st'.filter := by
  rw [bloomStCheckAndSet, bloomFilterCheckAndSet]
  obtain ⟨b, hchk⟩ := bloomStCheck_some st v hWF
  rw [bloomStCheck] at hchk
  rw [hchk]
  dsimp only
  obtain ⟨f', hf, hWF'⟩ := bloomSetBits_some st.filter v hWF
  rw [hf]
  exact ⟨b, _, rfl, hWF'⟩

theorem bloomNewLimitAndSize_WF (d : ContainerDetails) (k00 k01 k10 k11 : Nat)
    (hsize : 1 ≤ d.cd.size) : BloomWF (bloomNewLimitAndSize d k00 k01 k10 k11).filter := by
  refine ⟨?_, ?_⟩
  · rw [bloomNewLimitAndSize]
    simp only [bloomFilterNew]
    omega
  · rw [bloomNewLimitAndSize]
    simp only [bloomFilterNew, List.length_replicate]
    exact Nat.le_refl _

theorem bloomNewLimitAndErrorRate_WF (d : ContainerDetails) (m k k00 k01 k10 k11 : Nat)
    (hm : 1 ≤ m) :
    BloomWF (bloomNewLimitAndErrorRate d m k k00 k01 k10 k11).filter := by
  refine ⟨?_, ?_⟩
  · rw [bloomNewLimitAndErrorRate]
    exact hm
  · rw [bloomNewLimitAndErrorRate]
    simp only [List.length_replicate]
    exact Nat.le_refl _

/-! ## Claim C2 -/

/-- Claim C2, code bug: save/reload does not preserve `check` for the Bloom
kinds.  `load_content` (`container_memory_bloom.rs` lines 119-123) passes
the stored capacity (`limit`) as the `k_num` argument of
`Bloom::from_existing`, instead of the hash count derived at construction
(and for the by-error-rate kind it also reconstructs the bitmap from the
stored `size` field, which is 0 for that kind, so every reloaded `check`
panics on `mod 0`).  Concretely: a Bloom container with `size 1, limit 2`
derives `k = round((8/2)·ln 2) = 3`; after inserting the line "b", saving
and reloading, the reloaded filter checks only `k = 2` positions and the
never-inserted line "aa" flips from not-found to found, while the sip keys
themselves are correctly restored. -/
theorem c2_bloom_reload_changes_check :
    ((bloomSet (bloomNewLimitAndSize cdBloomDemo 0 0 1 0) [98]).bind
        (fun st => bloomStCheck st [97, 97])) = some false
      ∧ ((bloomSet (bloomNewLimitAndSize cdBloomDemo 0 0 1 0) [98]).bind
          (fun st => (fromFileBytes "f.blm" (saveBytes (Cont.bloomC st))).bind
            (fun c => contCheck c [97, 97]))) = some true := by
  decide

/-! ## Claim C8 -/

/-- Counterexample to claim C8 as stated: `Container::save` opens the
destination path itself with `File::create`, which truncates any existing
file in place before the new content is written; there is no temporary
file and no rename.  The transcribed claim (`saveUsesTempAndRename`) is
false for a concrete container. -/
theorem c8_counterexample_save_truncates_in_place :
    ¬ saveUsesTempAndRename (Cont.xxh (xxhNew cdXxhDemo)) := by
  intro h
  exact h.1 (by decide)

/-- Claim C8, amended: `save` opens the destination with `File::create`
(truncating it in place) as its first file-system operation, performs no
rename at all, and then writes the 128-byte header followed by the payload
directly to that file — so a failure partway through leaves the destination
truncated or partially written. -/
theorem c8_amended_save_writes_destination_directly (c : Cont) :
    (saveOps c).head? = some (FsOp.create (contDetails c).path)
      ∧ (∀ op ∈ saveOps c, op.isRen = false)
      ∧ writtenBytes (saveOps c) = headerBytes c ++ payloadBytes c := by
  refine ⟨rfl, ?_, by simp [saveOps, writtenBytes]⟩
  intro op hop
  rcases List.mem_cons.mp hop with h | hop
  · subst h; rfl
  rcases List.mem_cons.mp hop with h | hop
  · subst h; rfl
  rcases List.mem_cons.mp hop with h | hop
  · subst h; rfl
  · exact absurd hop (List.not_mem_nil op)

/-- Witness for the amended C8 at a concrete container. -/
theorem c8_amended_save_writes_destination_directly_witness :
    (saveOps (Cont.xxh (xxhNew cdXxhTiny))).head?
        = some (FsOp.create (contDetails (Cont.xxh (xxhNew cdXxhTiny))).path)
      ∧ FsOp.isRen (FsOp.create (contDetails (Cont.xxh (xxhNew cdXxhTiny))).path) = false
      ∧ writtenBytes (saveOps (Cont.xxh (xxhNew cdXxhTiny)))
          = headerBytes (Cont.xxh (xxhNew cdXxhTiny))
            ++ payloadBytes (Cont.xxh (xxhNew cdXxhTiny)) :=
  ⟨(c8_amended_save_writes_destination_directly (Cont.xxh (xxhNew cdXxhTiny))).1,
   (c8_amended_save_writes_destination_directly (Cont.xxh (xxhNew cdXxhTiny))).2.1
     (FsOp.create (contDetails (Cont.xxh (xxhNew cdXxhTiny))).path) (by decide),
   (c8_amended_save_writes_destination_directly (Cont.xxh (xxhNew cdXxhTiny))).2.2⟩

/-! ## Claim C5 -/

/-- Counterexample to claim C5 as stated, at both ends of the size range:
an Xxh container constructed with the valid parameters `capacity = 1`,
`size_bytes = 1` has `num_slots = 8 / 21 = 0`, and then `calc_slot_index`
divides by zero (`hash % num_slots`), a panic, on every operation — here
`check` of the empty string (a valid input per the claim) fails; and with
`size_bytes = 2^61` the 64-bit product `size_bytes * 8` wraps to `0`, so
`num_slots` is again `0` and `check` panics the same way. -/
theorem c5_counterexample_tiny_container_panics :
    (1 ≤ cdXxhTiny.cd.limit ∧ 1 ≤ cdXxhTiny.cd.size
      ∧ xxhCheck (xxhNew cdXxhTiny) [] = none)
    ∧ (1 ≤ cdXxhHuge.cd.limit ∧ 3 ≤ cdXxhHuge.cd.size
      ∧ xxhCheck (xxhNew cdXxhHuge) [] = none) := by
  decide

/-- Claim C5, amended: the filter operations are infallible for every input
byte string (including the empty string) on every well-formed container
state, where containers constructed from valid parameters are well-formed
provided that an Xxh container additionally has `3 ≤ size_bytes < 2^61`:
the lower bound gives at least one 21-bit slot (with `size_bytes ∈ {1, 2}`,
`num_slots = 8 * size_bytes / 21 = 0`), and the upper bound keeps the
64-bit product `size_bytes * 8` from wrapping (at `size_bytes ≥ 2^61` it
wraps mod `2^64`, at `2^61` exactly to `0`, making `num_slots` zero again);
outside these bounds every `check`/`set`/`check_and_set` panics with a
division by zero in `calc_slot_index`.  The remaining interface
operations — `is_full`, `usage`, `write_level` — are total functions of
the state in the embedding, as in the source, where they involve no
fallible operation. -/
theorem c5_amended_no_panics_on_valid_containers :
    (∀ (d : ContainerDetails), 3 ≤ d.cd.size → d.cd.size < 2 ^ 61 →
        XxhWF (xxhNew d))
      ∧ (∀ (st : XxhState) (v : List Nat), XxhWF st →
          (∃ b, xxhCheck st v = some b)
            ∧ (∃ f st', xxhCheckAndSet st v = some (f, st') ∧ XxhWF st')
            ∧ (∃ st', xxhSet st v = some st' ∧ XxhWF st'))
      ∧ (∀ (d : ContainerDetails) (k00 k01 k10 k11 : Nat), 1 ≤ d.cd.size →
          BloomWF (bloomNewLimitAndSize d k00 k01 k10 k11).filter)
      ∧ (∀ (d : ContainerDetails) (m k k00 k01 k10 k11 : Nat), 1 ≤ m →
          BloomWF (bloomNewLimitAndErrorRate d m k k00 k01 k10 k11).filter)
      ∧ (∀ (st : BloomState) (v : List Nat), BloomWF st.filter →
          (∃ b, bloomStCheck st v = some b)
            ∧ (∃ f st', bloomStCheckAndSet st v = some (f, st') ∧ BloomWF st'.filter)
            ∧ (∃ st', bloomSet st v = some st' ∧ BloomWF st'.filter)) :=
  ⟨xxhNew_WF,
   fun st v hWF =>
     ⟨xxhCheck_some st v hWF, xxhCheckAndSet_some st v hWF, xxhSet_some st v hWF⟩,
   fun d k00 k01 k10 k11 h => bloomNewLimitAndSize_WF d k00 k01 k10 k11 h,
   fun d m k k00 k01 k10 k11 h => bloomNewLimitAndErrorRate_WF d m k k00 k01 k10 k11 h,
   fun st v hWF =>
     ⟨bloomStCheck_some st v hWF, bloomStCheckAndSet_some st v hWF,
      bloomSet_some st v hWF⟩⟩

/-- Witness for the amended C5: a size-3 Xxh container is well-formed and a
concrete `check` on it succeeds. -/
theorem c5_amended_no_panics_on_valid_containers_witness :
    (3 ≤ cdXxhDemo.cd.size ∧ cdXxhDemo.cd.size < 2 ^ 61
        ∧ XxhWF (xxhNew cdXxhDemo))
      ∧ (∃ b, xxhCheck (xxhNew cdXxhDemo) [] = some b) :=
  ⟨⟨by decide, by decide,
    c5_amended_no_panics_on_valid_containers.1 cdXxhDemo (by decide) (by decide)⟩,
   (c5_amended_no_panics_on_valid_containers.2.1 (xxhNew cdXxhDemo) []
     (c5_amended_no_panics_on_valid_containers.1 cdXxhDemo (by decide)
       (by decide))).1⟩

/-! ## Claim C1 -/

/-- Claim C1, code bug: the specification says lines whose bytes are not
valid UTF-8 are hashed as raw bytes, run through the same admission logic,
and emitted only when `emit = (inverse XOR (not found)) ∧ ¬silent` selects
them.  The implementation (`process`, `src/bloom/process.rs` lines 53-61)
instead writes any invalid-UTF-8 line back to stdout verbatim,
unconditionally: the containers are never consulted or updated, duplicates
are not suppressed, and even silent mode does not suppress the output.
This evaluation exhibits the failing input: write mode with silent mode on,
one fresh Xxh container, stdin `0xFF \n 0xFF \n`; the claim requires empty
output (silent) and a container update, but both copies of the line are
echoed and the container is left fresh with the cursor at 0. -/
theorem c1_invalid_utf8_bypasses_pipeline :
    processBytes { writeMode := true, inverse := false, silent := true }
        [Cont.xxh (xxhNew cdXxhDemo)] [255, 10, 255, 10]
      = some ([Cont.xxh (xxhNew cdXxhDemo)], 0, [255, 10, 255, 10]) := by
  decide

/-! ## Claim C7 -/

/-- Claim C7: over any pipeline run, the writable cursor never decreases
(the trace of per-line cursor values is a `≤`-chain), and at every line the
cursor value produced by the cursor-advancement step bounds a prefix of
full containers: every container with index below it is full. -/
theorem c7_cursor_monotone_and_prefix_full (p : Flags) (lines : List (List Nat))
    (cs : List Cont) (ts : List (List Cont × Nat))
    (h : lineStates p lines cs 0 = some ts) :
    List.Chain' (fun s t => s.2 ≤ t.2) ts
      ∧ ∀ s ∈ ts, prefixFull s.1 (advancedCursorOf p s) :=
  lineStates_invariant p lines cs 0 ts
    (fun j _ hj _ => absurd hj (Nat.not_lt_zero j)) h

/-- Witness for C7: a concrete write-mode run of one line on a capacity-1
container. -/
theorem c7_cursor_monotone_and_prefix_full_witness :
    lineStates flagsWrite [[98]] [Cont.xxh (xxhNew cdXxhOne)] 0
        = some [([Cont.xxh (xxhNew cdXxhOne)], 0), ([Cont.xxh (xxhAfter cdXxhOne [98])], 0)]
      ∧ (List.Chain' (fun s t => s.2 ≤ t.2)
          [([Cont.xxh (xxhNew cdXxhOne)], 0), ([Cont.xxh (xxhAfter cdXxhOne [98])], 0)]
        ∧ ∀ s ∈ [([Cont.xxh (xxhNew cdXxhOne)], 0),
                 ([Cont.xxh (xxhAfter cdXxhOne [98])], 0)],
            prefixFull s.1 (advancedCursorOf flagsWrite s)) :=
  ⟨by decide,
   c7_cursor_monotone_and_prefix_full flagsWrite [[98]] [Cont.xxh (xxhNew cdXxhOne)]
     [([Cont.xxh (xxhNew cdXxhOne)], 0), ([Cont.xxh (xxhAfter cdXxhOne [98])], 0)]
     (by decide)⟩

/-! ## Claim C4 -/

/-- Counterexample to claim C4 as stated: the claim says that in write mode
the scan stops after calling `check_and_set` on the cursor container, so
containers at larger indices are never queried.  In the code the scan
breaks only when `check_and_set` returned true; on a miss it continues and
queries the later containers.  Concretely, with a fresh cursor container at
index 0 and a container already holding the line at index 1, the pipeline
finds the line at index 1 and emits nothing, whereas the claimed scan
(`processLineClaimC4`, transcribed from the claim) would record the line as
not found and emit it. -/
theorem c4_counterexample_scan_continues_past_cursor :
    (processLine flagsWrite
        [Cont.xxh (xxhNew cdXxhDemo), Cont.xxh (xxhAfter cdXxhDemo [98])] 0 [98]).map
        (fun r => r.2.2) = some []
      ∧ (processLineClaimC4 flagsWrite
          [Cont.xxh (xxhNew cdXxhDemo), Cont.xxh (xxhAfter cdXxhDemo [98])] 0 [98]).map
          (fun r => r.2.2) = some [98, 10] := by
  decide

/-- Claim C4, amended: in write mode, when the scan reaches the container
at the writable cursor it calls `check_and_set` there and records `found`
and `written` as that call's result, but it stops the scan only when the
result is true (leaving the containers after the cursor untouched and
unqueried); when the result is false the scan continues over the remaining
containers with the read-only `check`. -/
theorem c4_amended_break_only_on_found (pre post : List Cont) (c c' : Cont)
    (line : List Nat) (f : Bool)
    (hpre : ∀ (k : Nat) (c0 : Cont), pre[k]? = some c0 → contCheck c0 line = some false)
    (hcas : contCheckAndSet c line = some (f, c')) :
    scanFrom true pre.length line 0 (pre ++ c :: post)
      = if f then some (true, true, pre ++ c' :: post)
        else (scanFrom true pre.length line (pre.length + 1) post).map
              (fun r => (r.1, r.2.1, pre ++ c' :: r.2.2)) := by
  rw [scanFrom_skip_misses true pre.length line pre (c :: post) 0
    (by intro k hk hcontra; omega) hpre]
  rw [scanFrom, if_pos ⟨rfl, by omega⟩, hcas]
  dsimp only
  by_cases hf : f = true
  · subst hf
    simp
  · simp only [Bool.not_eq_true] at hf
    subst hf
    simp only [Bool.false_eq_true, if_false]
    rw [Option.map_map]
    have hidx : 0 + pre.length + 1 = pre.length + 1 := by omega
    rw [hidx]
    rfl

/-- Witness for the amended C4: a concrete miss at the cursor container
followed by a hit in the container after it. -/
theorem c4_amended_break_only_on_found_witness :
    contCheckAndSet (Cont.xxh (xxhNew cdXxhDemo)) [98]
        = some (false, Cont.xxh (xxhAfter cdXxhDemo [98]))
      ∧ scanFrom true 0 [98]
          0 ([] ++ Cont.xxh (xxhNew cdXxhDemo) :: [Cont.xxh (xxhAfter cdXxhDemo [98])])
        = if false then
            some (true, true, [] ++ Cont.xxh (xxhAfter cdXxhDemo [98])
              :: [Cont.xxh (xxhAfter cdXxhDemo [98])])
          else (scanFrom true 0 [98] 1 [Cont.xxh (xxhAfter cdXxhDemo [98])]).map
              (fun r => (r.1, r.2.1, [] ++ Cont.xxh (xxhAfter cdXxhDemo [98]) :: r.2.2)) :=
  ⟨by decide,
   c4_amended_break_only_on_found [] [Cont.xxh (xxhAfter cdXxhDemo [98])]
     (Cont.xxh (xxhNew cdXxhDemo)) (Cont.xxh (xxhAfter cdXxhDemo [98])) [98] false
     (by intro k c0 h; simp at h) (by decide)⟩

/-! ## Claim C6 -/

/-- Counterexample to claim C6 as stated: the claim says that whenever the
line is found in a container other than the cursor container, the cursor
container is left unchanged.  With a fresh cursor container at index 0 and
the line already present in the container at index 1, the cursor
container's `check_and_set` runs first and inserts the line (its
`writes_observed` goes from 0 to 1) before the scan finds the line in
container 1. -/
theorem c6_counterexample_insert_despite_later_hit :
    contCheck (Cont.xxh (xxhAfter cdXxhDemo [98])) [98] = some true
      ∧ contNumWrites (Cont.xxh (xxhNew cdXxhDemo)) = 0
      ∧ (processLine flagsWrite
          [Cont.xxh (xxhNew cdXxhDemo), Cont.xxh (xxhAfter cdXxhDemo [98])] 0 [98]).map
          (fun r => r.1.map contNumWrites) = some [1, 1] := by
  decide

/-- Claim C6, amended: in write mode, when the line is found in a container
with index strictly below the writable cursor (all containers before it
missing), the scan stops there and no container is modified at all — in
particular the cursor container's bit array and `writes_observed` are
unchanged. -/
theorem c6_amended_found_before_cursor_frame (p : Flags) (pre post : List Cont)
    (ci : Cont) (cur : Nat) (line : List Nat)
    (hw : p.writeMode = true)
    (hlt : pre.length < advanceCursor (pre ++ ci :: post) cur)
    (hfound : contCheck ci line = some true)
    (hpre : ∀ (k : Nat) (c0 : Cont), pre[k]? = some c0 → contCheck c0 line = some false) :
    processLine p (pre ++ ci :: post) cur line
      = some (pre ++ ci :: post, advanceCursor (pre ++ ci :: post) cur,
              emitBytes p true line) := by
  rw [processLine]
  simp only [hw, if_true]
  rw [scanFrom_skip_misses _ _ line pre (ci :: post) 0
    (by intro k hk hcontra; omega) hpre]
  rw [scanFrom, if_neg (by intro hcontra; omega), hfound]
  simp

/-- Witness for the amended C6: the first container is full and holds the
line, so the cursor has moved past it; processing the line changes
nothing. -/
theorem c6_amended_found_before_cursor_frame_witness :
    (0 : Nat) < advanceCursor
        ([Cont.xxh (xxhAfter cdXxhOne [98])] ++ Cont.xxh (xxhNew cdXxhDemo) :: []) 0
      ∧ contCheck (Cont.xxh (xxhAfter cdXxhOne [98])) [98] = some true
      ∧ processLine flagsWrite
          ([] ++ Cont.xxh (xxhAfter cdXxhOne [98]) :: [Cont.xxh (xxhNew cdXxhDemo)]) 0 [98]
        = some ([] ++ Cont.xxh (xxhAfter cdXxhOne [98]) :: [Cont.xxh (xxhNew cdXxhDemo)],
            advanceCursor
              ([] ++ Cont.xxh (xxhAfter cdXxhOne [98]) :: [Cont.xxh (xxhNew cdXxhDemo)]) 0,
            emitBytes flagsWrite true [98]) :=
  ⟨by decide, by decide,
   c6_amended_found_before_cursor_frame flagsWrite [] [Cont.xxh (xxhNew cdXxhDemo)]
     (Cont.xxh (xxhAfter cdXxhOne [98])) 0 [98] rfl (by decide) (by decide)
     (by intro k c0 h; simp at h)⟩

/-! ## Claim C10 -/

/-- Claim C10: with write mode off, processing any input leaves every
container unchanged and the writable cursor at 0 (the scan only ever calls
the read-only `check`). -/
theorem c10_read_mode_frame (inv sil : Bool) (cs : List Cont) (input : List Nat)
    (r : List Cont × Nat × List Nat)
    (h : processBytes { writeMode := false, inverse := inv, silent := sil } cs input
          = some r) :
    r.1 = cs ∧ r.2.1 = 0 :=
  processLines_read_mode inv sil (splitLines input) cs 0 r h

/-- Witness for C10: a concrete read-mode run. -/
theorem c10_read_mode_frame_witness :
    processBytes { writeMode := false, inverse := false, silent := false }
        [Cont.xxh (xxhNew cdXxhDemo)] [97, 10]
      = some ([Cont.xxh (xxhNew cdXxhDemo)], 0, [97, 10])
      ∧ [Cont.xxh (xxhNew cdXxhDemo)] = [Cont.xxh (xxhNew cdXxhDemo)] ∧ (0 : Nat) = 0 :=
  ⟨by decide,
   c10_read_mode_frame false false [Cont.xxh (xxhNew cdXxhDemo)] [97, 10]
     ([Cont.xxh (xxhNew cdXxhDemo)], 0, [97, 10]) (by decide)⟩

end Bloom
